import Mathlib

/-!
Verification of the TiLiA media playback controller and loop-region engine
(`src/tilia/media/player/base.py`, class `Player`).

Times are modelled as rationals (`ℚ`).  Python dicts keyed by time values are
modelled as association lists in insertion order; Python sets of neighbour
values are modelled as duplicate-free lists in insertion order (the code only
takes min/max over them, so the set iteration order is immaterial).  Each
`post(...)` notification and each engine/resolver call is recorded as an
`Event` in an output list, in program order.
-/

namespace TiLiA

/-- `Player.UPDATE_INTERVAL = 100` (milliseconds), from `base.py`. -/
def UPDATE_INTERVAL : ℚ := 100

/-- `Player.E = UPDATE_INTERVAL / 500`, the epsilon guard, from `base.py`. -/
def E : ℚ := UPDATE_INTERVAL / 500

/-- One entry of the `graph` dict in `_check_loop_continuity`:
`{'is_visited': ..., 'node': {...}}`. -/
structure NodeInfo where
  visited : Bool
  nbrs : List ℚ
deriving Repr, DecidableEq

/-- The `graph` dict of `_check_loop_continuity`: keys are time values, in
insertion order. -/
abbrev Graph := List (ℚ × NodeInfo)

/-- Dict lookup `graph[i]`. -/
def lookupNode : Graph → ℚ → Option NodeInfo
  | [], _ => none
  | (k, ni) :: rest, q => if k = q then some ni else lookupNode rest q

/-- The assignment `graph[index]['is_visited'] = True`. -/
def markVisited : Graph → ℚ → Graph
  | [], _ => []
  | (k, ni) :: rest, q =>
    if k = q then (k, ⟨true, ni.nbrs⟩) :: rest else (k, ni) :: markVisited rest q

/-- `if k in graph: graph[k]['node'].add(v) else: graph[k] = {'is_visited':
False, 'node': {v}}` — one half of the per-element insertion in
`_check_loop_continuity`. -/
def addNbr : Graph → ℚ → ℚ → Graph
  | [], k, v => [(k, ⟨false, [v]⟩)]
  | (q, ni) :: rest, k, v =>
    if q = k then
      (q, ⟨ni.visited, if v ∈ ni.nbrs then ni.nbrs else ni.nbrs ++ [v]⟩) :: rest
    else (q, ni) :: addNbr rest k v

/-- Building the `graph` dict: for each element, link `start ↔ end`. -/
def buildGraph (elements : List (ℚ × ℚ)) : Graph :=
  elements.foldl (fun g p => addNbr (addNbr g p.1 p.2) p.2 p.1) []

/-- The neighbour loop of the recursive `dfs` in `_check_loop_continuity`:
`for node in graph[index]['node']: ...` with the running `cur_min`/`cur_max`
updates.  The recursive call is abstracted as `dfsF` (instantiated with the
next fuel level). -/
def dfsNbrs (dfsF : Graph → ℚ → ℚ → ℚ → Graph × ℚ × ℚ) :
    Graph → List ℚ → ℚ → ℚ → Graph × ℚ × ℚ
  | g, [], cmin, cmax => (g, cmin, cmax)
  | g, n :: rest, cmin, cmax =>
    let r := dfsF g n (min n cmin) (max n cmax)
    dfsNbrs dfsF r.1 rest (min r.2.1 cmin) (max r.2.2 cmax)

/-- The recursive `dfs(index, cur_min, cur_max)` of `_check_loop_continuity`,
with an explicit fuel parameter standing in for Python's unbounded recursion
(a fuel of `graph.length + 1` is always sufficient, since each level of
recursion past a visited-check marks one node).  A lookup failure returns the
accumulators unchanged; it never occurs, because every neighbour value is
also inserted as a key by `buildGraph`. -/
def dfs : Nat → Graph → ℚ → ℚ → ℚ → Graph × ℚ × ℚ
  | 0, g, _, cmin, cmax => (g, cmin, cmax)
  | fuel + 1, g, i, cmin, cmax =>
    match lookupNode g i with
    | none => (g, cmin, cmax)
    | some ni =>
      if ni.visited then (g, cmin, cmax)
      else dfsNbrs (dfs fuel) (markVisited g i) ni.nbrs cmin cmax

/-- The component-extraction loop: `for i in graph: if not
graph[i]['is_visited']: connections[i] = dfs(i, i, i)`, returning the spans
in key order. -/
def collectConnections (fuel : Nat) : Graph → List ℚ → Graph × List (ℚ × ℚ)
  | g, [] => (g, [])
  | g, k :: rest =>
    match lookupNode g k with
    | none => collectConnections fuel g rest
    | some ni =>
      if ni.visited then collectConnections fuel g rest
      else
        let r := dfs fuel g k k k
        let rr := collectConnections fuel r.1 rest
        (rr.1, (r.2.1, r.2.2) :: rr.2)

/-- The component-merge loop of `_check_loop_continuity`: the four
overlap/nesting cases on the running `connector`, with `(False, [0, 0])` on a
disjoint component.  The list passed in is the whole of `connections`
(including the entry aliased by `connector` itself, which passes by the
third, non-strict case). -/
def mergeLoop : ℚ × ℚ → List (ℚ × ℚ) → Bool × (ℚ × ℚ)
  | connector, [] => (true, connector)
  | (p, q), (a, b) :: rest =>
    if p < a ∧ q > a ∧ q < b then mergeLoop (p, b) rest
    else if p > a ∧ p < b ∧ q > b then mergeLoop (a, q) rest
    else if p ≤ a ∧ q ≥ b then mergeLoop (p, q) rest
    else if p > a ∧ q < b then mergeLoop (a, b) rest
    else (false, (0, 0))

/-- `_check_loop_continuity`, as a function of the resolved
`(start, end)` intervals of the loop elements, in iteration order.  Returns
`none` exactly when the input is empty (where Python's
`next(iter(connections.values()))` would raise `StopIteration`; the caller
`_update_loop_elements` only invokes the check with non-empty
`loop_elements`). -/
def check_loop_continuity (elements : List (ℚ × ℚ)) : Option (Bool × (ℚ × ℚ)) :=
  let g := buildGraph elements
  let conns := (collectConnections (g.length + 1) g (g.map Prod.fst)).2
  match conns with
  | [] => none
  | c :: _ => some (mergeLoop c conns)

/-- `PlayerToolbarElement` (from `tilia/ui/player.py`); only `TOGGLE_LOOP` is
posted by the `Player` methods modelled here. -/
inductive PlayerToolbarElement where
  | togglePlayPause
  | toggleLoop
  | toggleVolume
  | sliderVolume
  | spinboxPlayback
deriving Repr, DecidableEq

/-- `MediaTimeChangeReason` from `base.py`. -/
inductive MediaTimeChangeReason where
  | playback
  | seek
  | load
deriving Repr, DecidableEq

/-- Modelled from the spec: the user-visible "no media" message constants
`NO_MEDIA_LOADED_ERROR_TITLE` / `NO_MEDIA_LOADED_ERROR_MESSAGE` live in
`tilia/ui/strings.py`, which is not among the provided sources; the spec
says only that a "no media" error condition is surfaced, so the exact text
is immaterial here. -/
def NO_MEDIA_LOADED_ERROR_TITLE : String := "No media loaded"

/-- Modelled from the spec: companion message to
`NO_MEDIA_LOADED_ERROR_TITLE` (see there). -/
def NO_MEDIA_LOADED_ERROR_MESSAGE : String := "Load a media file before playing."

/-- Every externally observable action of the `Player` methods, in program
order: `post(...)` notifications, engine-adapter calls, timer arm/disarm, and
the per-region `on_loop_set` display-flag calls made through the resolver. -/
inductive Event where
  | postDisplayError (title message : String)
  | postUIUpdate (elem : PlayerToolbarElement) (b : Bool)
  | postCurrentLoopChanged (a b : ℚ)
  | postCurrentTimeChanged (t : ℚ) (reason : MediaTimeChangeReason)
  | postURLChanged (path : String)
  | postMediaUnloaded
  | postStopping
  | postStopped
  | postPaused
  | postUnpaused
  | engineSeek (t : ℚ)
  | engineStop
  | enginePause
  | enginePlay
  | engineUnload
  | engineLoop (b : Bool)
  | timerStart
  | timerStop
  | elemLoopSet (timelineId componentId : Nat) (b : Bool)
deriving Repr, DecidableEq

/-- The `Player` instance attributes set in `__init__`, plus `timer_on`
modelling whether `self.qtimer` is armed (`qtimer.start` / `qtimer.stop`).
Default values are the `__init__` values. -/
structure PlayerState where
  is_media_loaded : Bool := false
  duration : ℚ := 0
  playback_start : ℚ := 0
  playback_end : ℚ := 0
  current_time : ℚ := 0
  media_path : String := ""
  is_playing : Bool := false
  is_looping : Bool := false
  loop_start : ℚ := 0
  loop_end : ℚ := 0
  loop_elements : List (Nat × Nat) := []
  timer_on : Bool := false
deriving Repr, DecidableEq

/-- The freshly constructed player state. -/
def initState : PlayerState := {}

/-- External queries made through the request bus: `get(Get.MEDIA_DURATION)`
and the resolution of a `(timeline_id, component_id)` pair to its current
`(start, end)` data via `get(Get.TIMELINE_UI_ELEMENT, ...)`. -/
structure Env where
  mediaDuration : ℚ
  resolve : Nat × Nat → ℚ × ℚ

/-- `_remove_loop_elements_UI`: un-flag every loop element through the
resolver, then clear `loop_elements`. -/
def removeLoopElementsUI (s : PlayerState) : PlayerState × List Event :=
  ({ s with loop_elements := [] },
   s.loop_elements.map fun e => Event.elemLoopSet e.1 e.2 false)

/-- `check_seek_outside_loop(time)`: hard-cancel the loop when a seek target
falls strictly outside `[loop_start - E, loop_end + E]`. -/
def check_seek_outside_loop (s : PlayerState) (time : ℚ) : PlayerState × List Event :=
  if s.is_looping = true ∧ (time > s.loop_end + E ∨ time < s.loop_start - E) then
    let r := removeLoopElementsUI { s with is_looping := false }
    (r.1, r.2 ++ [Event.postUIUpdate .toggleLoop false, Event.postCurrentLoopChanged 0 0])
  else (s, [])

/-- `on_seek(time, if_paused)`. -/
def on_seek (s : PlayerState) (time : ℚ) (if_paused : Bool) : PlayerState × List Event :=
  if if_paused = true ∧ s.is_playing = true then (s, [])
  else
    let r :=
      if s.is_media_loaded = true then
        let c := check_seek_outside_loop s time
        (c.1, c.2 ++ [Event.engineSeek time])
      else (s, ([] : List Event))
    ({ r.1 with current_time := time },
     r.2 ++ [Event.postCurrentTimeChanged time .seek])

/-- `toggle_play(toggle_is_playing)`. -/
def toggle_play (s : PlayerState) (toggle_is_playing : Bool) : PlayerState × List Event :=
  if s.media_path = "" then
    (s, [Event.postDisplayError NO_MEDIA_LOADED_ERROR_TITLE NO_MEDIA_LOADED_ERROR_MESSAGE])
  else if toggle_is_playing then
    let r := if s.is_looping = true then on_seek s s.loop_start false else (s, [])
    ({ r.1 with is_playing := true, timer_on := true },
     r.2 ++ [Event.enginePlay, Event.timerStart, Event.postUnpaused])
  else
    ({ s with is_playing := false, timer_on := false },
     [Event.enginePause, Event.timerStop, Event.postPaused])

/-- `stop()`. -/
def stop (s : PlayerState) : PlayerState × List Event :=
  if s.is_playing = false ∧ s.current_time = 0 then (s, [Event.postStopping])
  else
    let s1 := { s with is_playing := false, timer_on := false }
    let r :=
      if s1.is_looping = true then
        let u := removeLoopElementsUI { s1 with is_looping := false }
        (u.1, u.2 ++ [Event.postUIUpdate .toggleLoop false, Event.postCurrentLoopChanged 0 0])
      else (s1, ([] : List Event))
    ({ r.1 with current_time := s.playback_start },
     [Event.postStopping, Event.engineStop, Event.timerStop] ++ r.2 ++
       [Event.engineSeek s.playback_start, Event.postStopped,
        Event.postCurrentTimeChanged s.playback_start .playback])

/-- `_update_loop_elements`.  The `none` branch is unreachable: the check
returns `some` whenever `loop_elements` is non-empty (its graph is then
non-empty), and the method is only entered on that branch with non-empty
`loop_elements`. -/
def update_loop_elements (env : Env) (s : PlayerState) : PlayerState × List Event :=
  if s.loop_elements = [] then
    let start_time : ℚ := 0
    let end_time := env.mediaDuration
    let u := removeLoopElementsUI s
    ({ u.1 with is_looping := true, loop_start := start_time, loop_end := end_time },
     [Event.engineLoop true] ++ u.2 ++
       [Event.postUIUpdate .toggleLoop true, Event.postCurrentLoopChanged start_time end_time])
  else
    match check_loop_continuity (s.loop_elements.map env.resolve) with
    | none => (s, [])
    | some (connected, start_time, end_time) =>
      if connected = false then
        let u := removeLoopElementsUI { s with is_looping := false }
        (u.1,
         [Event.postDisplayError "Looping Error" "Selected Hierarchies are disjunct."] ++ u.2 ++
           [Event.postUIUpdate .toggleLoop false, Event.postCurrentLoopChanged 0 0])
      else
        let end_time' :=
          if |end_time - env.mediaDuration| < 1 then env.mediaDuration - E else end_time
        ({ s with is_looping := true, loop_start := start_time, loop_end := end_time' },
         (s.loop_elements.map fun e => Event.elemLoopSet e.1 e.2 true) ++
           [Event.postUIUpdate .toggleLoop true, Event.postCurrentLoopChanged start_time end_time'])

/-- `toggle_loop(is_looping)`, with the current hierarchy selection
(`get(Get.TIMELINE_ELEMENTS_SELECTED)`, flattened to `(timeline_ui.id,
element.id)` pairs) supplied externally. -/
def toggle_loop (env : Env) (selection : List (Nat × Nat)) (s : PlayerState)
    (is_looping : Bool) : PlayerState × List Event :=
  if is_looping then update_loop_elements env { s with loop_elements := selection }
  else
    let u := removeLoopElementsUI { s with is_looping := false }
    (u.1, [Event.engineLoop false] ++ u.2 ++ [Event.postCurrentLoopChanged 0 0])

/-- `cancel_loop` (the undo/redo handler): a silent reconciliation. -/
def cancel_loop (s : PlayerState) : PlayerState × List Event :=
  if s.is_looping = true then removeLoopElementsUI { s with is_looping := false }
  else (s, [])

/-- `unload_media()`. -/
def unload_media (s : PlayerState) : PlayerState × List Event :=
  let s1 := { s with is_media_loaded := false, duration := 0, current_time := 0,
                     media_path := "", is_playing := false, is_looping := false }
  let u := removeLoopElementsUI s1
  (u.1, [Event.engineUnload] ++ u.2 ++
    [Event.postUIUpdate .toggleLoop false, Event.postCurrentLoopChanged 0 0,
     Event.postMediaUnloaded])

/-- `on_media_load_done(path, start, end)`.  Note: it does not touch
`current_time`; it only posts the `(0.0, LOAD)` time-changed notification. -/
def on_media_load_done (s : PlayerState) (path : String) (start : ℚ) :
    PlayerState × List Event :=
  ({ s with media_path := path, playback_start := start, is_media_loaded := true },
   [Event.postURLChanged path, Event.postCurrentTimeChanged 0 .load])

/-- `check_not_loop_back(time)` decides the wrap; `_play_loop` then either
suppresses the tick's `PLAYBACK` notification (wrap) or emits it and checks
the end-of-media stop condition.  The engine's reported time is supplied
externally. -/
def play_loop (s : PlayerState) (engineTime : ℚ) : PlayerState × List Event :=
  let s1 := { s with current_time := engineTime - s.playback_start }
  if s1.is_looping = true ∧ s1.current_time ≥ s1.loop_end then
    on_seek s1 s1.loop_start false
  else
    let ev := [Event.postCurrentTimeChanged s1.current_time .playback]
    if s1.current_time ≥ s1.playback_end - s1.playback_start then
      let r := stop s1
      (r.1, ev ++ r.2)
    else (s1, ev)

/-! ### Graph-theoretic notions used to reason about `_check_loop_continuity` -/

/-- The key list of the `graph` dict, in insertion order. -/
def keysOf (g : Graph) : List ℚ := g.map Prod.fst

/-- `k` is a key of the `graph` dict. -/
def IsKey (g : Graph) (k : ℚ) : Prop := ∃ ni, lookupNode g k = some ni

/-- `k` is a key of the dict and is marked visited. -/
def Visited (g : Graph) (k : ℚ) : Prop :=
  ∃ ni, lookupNode g k = some ni ∧ ni.visited = true

/-- `b` is a recorded neighbour of `a`. -/
def EdgeOf (g : Graph) (a b : ℚ) : Prop :=
  ∃ ni, lookupNode g a = some ni ∧ b ∈ ni.nbrs

/-- Reachability along recorded neighbour links. -/
def Reach (g : Graph) : ℚ → ℚ → Prop := Relation.ReflTransGen (EdgeOf g)

/-- Reachability along neighbour links between unvisited nodes. -/
def ReachU (g : Graph) : ℚ → ℚ → Prop :=
  Relation.ReflTransGen (fun a b => EdgeOf g a b ∧ ¬Visited g a ∧ ¬Visited g b)

/-- The number of unvisited entries of the dict: the measure each `dfs`
marking step decreases, justifying the fuel bound. -/
def unvisitedCount : Graph → Nat
  | [] => 0
  | (_, ni) :: rest => (if ni.visited then 0 else 1) + unvisitedCount rest

/-- Every recorded neighbour is itself a key — true of every graph that
`buildGraph` produces, since each element inserts both of its endpoints. -/
def NbrsClosed (g : Graph) : Prop :=
  ∀ k ni, lookupNode g k = some ni → ∀ v ∈ ni.nbrs, IsKey g v

/-- What one traversal step preserves between graph states: keys and
neighbour lists unchanged, visited marks only grow. -/
def Evolves (g g' : Graph) : Prop :=
  (∀ k, (lookupNode g' k).map NodeInfo.nbrs = (lookupNode g k).map NodeInfo.nbrs) ∧
  (∀ k, Visited g k → Visited g' k) ∧
  keysOf g' = keysOf g ∧ unvisitedCount g' ≤ unvisitedCount g

/-- Where a `dfs` min/max accumulator value can come from: the root itself,
or a recorded neighbour of a node reachable from the root. -/
def SpanOrigin (g : Graph) (root v : ℚ) : Prop :=
  v = root ∨ ∃ k, Reach g root k ∧ EdgeOf g k v

/-- `v` is an endpoint value of some interval of `l`. -/
def IsEndpoint (l : List (ℚ × ℚ)) (v : ℚ) : Prop := ∃ p ∈ l, p.1 = v ∨ p.2 = v

/-- Two intervals share an exact endpoint value — `_check_loop_continuity`
then links their endpoints into one graph component. -/
def Linked (p q : ℚ × ℚ) : Prop :=
  p.1 = q.1 ∨ p.1 = q.2 ∨ p.2 = q.1 ∨ p.2 = q.2

/-- The intervals of `L` are pairwise endpoint-chained: transitively linked
through members of `L`. -/
def Chained (L : List (ℚ × ℚ)) : Prop :=
  ∀ p ∈ L, ∀ q ∈ L,
    Relation.ReflTransGen (fun a b => a ∈ L ∧ b ∈ L ∧ Linked a b) p q

/-- The union of the intervals of `l` has no internal gap: any point lying
in no interval has every interval entirely on one side of it. -/
def NoGap (l : List (ℚ × ℚ)) : Prop :=
  ∀ x : ℚ, (∀ p ∈ l, p.2 < x ∨ x < p.1) →
    ((∀ p ∈ l, p.2 < x) ∨ (∀ p ∈ l, x < p.1))

/-- The dict invariant established by `buildGraph`: keys are exactly the
endpoint values of the intervals satisfying `P`, nothing is visited, and the
recorded neighbour links are exactly the endpoint pairs of the
`P`-intervals. -/
def GraphInv (P : ℚ × ℚ → Prop) (g : Graph) : Prop :=
  (∀ k, IsKey g k ↔ ∃ p, P p ∧ (p.1 = k ∨ p.2 = k)) ∧
  (∀ k, ¬Visited g k) ∧
  (∀ q w, EdgeOf g q w ↔ ∃ p, P p ∧ ((p.1 = q ∧ p.2 = w) ∨ (p.2 = q ∧ p.1 = w)))

/-- The environment of the C2 counterexample: media duration `21/2`, and a
single loop element resolving to the interval `[0, 10]`. -/
def envC2 : Env := ⟨21 / 2, fun _ => (0, 10)⟩

/-- The player state of the C2 counterexample: one loop element. -/
def stateC2 : PlayerState := { initState with loop_elements := [(0, 0)] }

/-- The state of the C4 counterexample: media loaded, a loop enabled over
the region `[2, 5]` while paused at `current_time = 0`.  It is reachable
through the modelled operations from the initial state. -/
def stateC4 : PlayerState :=
  (toggle_loop ⟨10, fun _ => (2, 5)⟩ [(1, 1)] (on_media_load_done initState "m" 0).1 true).1

/-! ### Basic numeric facts about the epsilon guard -/

theorem E_eq : E = 1 / 5 := by norm_num [E, UPDATE_INTERVAL]

theorem E_nonneg : 0 ≤ E := by rw [E_eq]; norm_num

theorem E_lt_one : E < 1 := by rw [E_eq]; norm_num

/-! ### Behaviour of `_update_loop_elements` on a successful continuity check -/

theorem update_loop_elements_success_eq (env : Env) (s : PlayerState) (m M : ℚ)
    (hne : ¬s.loop_elements = [])
    (hchk : check_loop_continuity (s.loop_elements.map env.resolve) = some (true, (m, M))) :
    update_loop_elements env s =
      ({ s with
          is_looping := true
          loop_start := m
          loop_end := (if abs (M - env.mediaDuration) < 1 then env.mediaDuration - E else M) },
       (s.loop_elements.map fun e => Event.elemLoopSet e.1 e.2 true) ++
         [Event.postUIUpdate .toggleLoop true,
          Event.postCurrentLoopChanged m
            (if |M - env.mediaDuration| < 1 then env.mediaDuration - E else M)]) := by
  unfold update_loop_elements
  rw [if_neg hne, hchk]
  simp

theorem update_loop_elements_success (env : Env) (s : PlayerState) (m M : ℚ)
    (hne : ¬s.loop_elements = [])
    (hchk : check_loop_continuity (s.loop_elements.map env.resolve) = some (true, (m, M))) :
    (update_loop_elements env s).1.loop_start = m ∧
    (update_loop_elements env s).1.loop_end =
      (if |M - env.mediaDuration| < 1 then env.mediaDuration - E else M) ∧
    (update_loop_elements env s).1.is_looping = true := by
  rw [update_loop_elements_success_eq env s m M hne hchk]
  exact ⟨rfl, rfl, rfl⟩

/-! ### Claim C2: the boundary snap of the merged span's end -/

/-- Claim C2 (amended): when recompute runs with non-empty `loop_elements`
and the continuity check succeeds with merged span `[m, M]`, the stored loop
end is `duration - E` exactly when `M` lies strictly within `1.0` of the
media's total duration (not within one epsilon `E`, as originally claimed),
and is `M` otherwise. -/
theorem C2_boundary_snap (env : Env) (s : PlayerState) (m M : ℚ)
    (hne : ¬s.loop_elements = [])
    (hchk : check_loop_continuity (s.loop_elements.map env.resolve) = some (true, (m, M))) :
    (update_loop_elements env s).1.loop_end =
      (if |M - env.mediaDuration| < 1 then env.mediaDuration - E else M) :=
  (update_loop_elements_success env s m M hne hchk).2.1

/-- Claim C2 counterexample: with duration `21/2` the merged span `[0, 10]`
has its end at distance `1/2` from the duration — not within `E = 1/5` — yet
the code still snaps the stored loop end to `duration - E`.  This refutes
the "and only in that case" part of the claim. -/
theorem C2_counterexample :
    check_loop_continuity (stateC2.loop_elements.map envC2.resolve) = some (true, (0, 10)) ∧
    ¬|(10 : ℚ) - envC2.mediaDuration| < E ∧
    (update_loop_elements envC2 stateC2).1.loop_end = envC2.mediaDuration - E := by
  have habs : |(10 : ℚ) - envC2.mediaDuration| = 1 / 2 := by
    have h1 : (10 : ℚ) - envC2.mediaDuration = -(1 / 2) := by norm_num [envC2]
    rw [h1, abs_neg, abs_of_nonneg (by norm_num)]
  refine ⟨by decide, ?_, ?_⟩
  · rw [habs, E_eq]; norm_num
  · have h := update_loop_elements_success envC2 stateC2 0 10 (by decide) (by decide)
    rw [h.2.1, if_pos (by rw [habs]; norm_num)]

/-- Claim C2 witness: a span ending well away from the duration is stored
unsnapped. -/
theorem C2_witness :
    (¬stateC2.loop_elements = []) ∧
    (update_loop_elements ⟨100, envC2.resolve⟩ stateC2).1.loop_end =
      (if |(10 : ℚ) - (100 : ℚ)| < 1 then (100 : ℚ) - E else 10) := by
  constructor
  · decide
  · exact C2_boundary_snap ⟨100, envC2.resolve⟩ stateC2 0 10 (by decide) (by decide)

/-! ### Claim C3: commands requiring loaded media, issued with none loaded -/

/-- Claim C3 (amended): with no media loaded, `toggle_play` surfaces the
user-visible "no media" error, performs no engine call and leaves the state
unchanged; `on_seek`, however, surfaces no error and performs no engine
call, but still overwrites `current_time` and emits a time-changed(SEEK)
notification. -/
theorem C3_no_media_commands (s : PlayerState) (t : ℚ) (b : Bool)
    (hpath : s.media_path = "") (hloaded : s.is_media_loaded = false) :
    toggle_play s b =
      (s, [Event.postDisplayError NO_MEDIA_LOADED_ERROR_TITLE NO_MEDIA_LOADED_ERROR_MESSAGE]) ∧
    on_seek s t false = ({ s with current_time := t }, [Event.postCurrentTimeChanged t .seek]) := by
  constructor
  · unfold toggle_play
    rw [if_pos hpath]
  · simp [on_seek, hloaded]

/-- Claim C3 counterexample: seeking to `5` with no media loaded changes
`current_time` from `0` to `5` and emits only a time-changed(SEEK)
notification — no user-visible error, and the controller state is not left
unchanged. -/
theorem C3_counterexample :
    on_seek initState 5 false =
      ({ initState with current_time := 5 }, [Event.postCurrentTimeChanged 5 .seek]) ∧
    initState.current_time = 0 ∧ (5 : ℚ) ≠ 0 := by
  refine ⟨?_, by decide, by decide⟩
  decide

/-- Claim C3 witness. -/
theorem C3_witness :
    initState.media_path = "" ∧ initState.is_media_loaded = false ∧
    (toggle_play initState true =
      (initState,
       [Event.postDisplayError NO_MEDIA_LOADED_ERROR_TITLE NO_MEDIA_LOADED_ERROR_MESSAGE]) ∧
     on_seek initState 3 false =
      ({ initState with current_time := 3 }, [Event.postCurrentTimeChanged 3 .seek])) :=
  ⟨rfl, rfl, C3_no_media_commands initState 3 true rfl rfl⟩

/-! ### Claim C4: `stop()` and loop/current-time reset -/

/-- Claim C4 (amended): whenever `stop()` is called in a state that is
playing or has non-zero `current_time`, it leaves `is_looping = false` and
`current_time = playback_start`, even if a loop was active; in the remaining
case (paused with `current_time = 0`) `stop()` returns early and the whole
state — including an active loop — survives unchanged. -/
theorem C4_stop_resets (s : PlayerState)
    (h : s.is_playing = true ∨ ¬s.current_time = 0) :
    (stop s).1.is_looping = false ∧ (stop s).1.current_time = s.playback_start := by
  unfold stop
  have hcond : ¬(s.is_playing = false ∧ s.current_time = 0) := by
    rcases h with h | h
    · intro hc; rw [h] at hc; exact absurd hc.1 (by simp)
    · intro hc; exact h hc.2
  rw [if_neg hcond]
  by_cases hl : s.is_looping = true
  · simp [hl, removeLoopElementsUI]
  · simp [hl]

theorem stateC4_eq :
    stateC4 =
      { is_media_loaded := true, duration := 0, playback_start := 0, playback_end := 0,
        current_time := 0, media_path := "m", is_playing := false, is_looping := true,
        loop_start := 2, loop_end := 5, loop_elements := [(1, 1)], timer_on := false } := by
  unfold stateC4 toggle_loop
  rw [if_pos rfl,
    update_loop_elements_success_eq ⟨10, fun _ => (2, 5)⟩ _ 2 5 (by decide) (by decide)]
  have h5 : ¬(|(5 : ℚ) - (10 : ℚ)| < 1) := by
    rw [show (5 : ℚ) - 10 = -5 by norm_num, abs_neg, abs_of_nonneg (by norm_num)]
    norm_num
  simp [h5, on_media_load_done, initState]

/-- Claim C4 counterexample: calling `stop()` while paused at
`current_time = 0` with an active loop takes the early-return path, so
`is_looping` remains `true` afterwards — the claim fails on this reachable
state. -/
theorem C4_counterexample :
    stateC4.is_looping = true ∧ stateC4.is_playing = false ∧
    stateC4.current_time = 0 ∧ (stop stateC4).1.is_looping = true ∧
    (stop stateC4).1 = stateC4 := by
  rw [stateC4_eq]
  refine ⟨rfl, rfl, rfl, by decide, by decide⟩

/-- Claim C4 witness: stopping from a playing state with an active loop. -/
theorem C4_witness :
    ({ stateC4 with is_playing := true }.is_playing = true ∨
      ¬{ stateC4 with is_playing := true }.current_time = 0) ∧
    (stop { stateC4 with is_playing := true }).1.is_looping = false ∧
    (stop { stateC4 with is_playing := true }).1.current_time =
      { stateC4 with is_playing := true }.playback_start :=
  ⟨Or.inl rfl, C4_stop_resets { stateC4 with is_playing := true } (Or.inl rfl)⟩

/-! ### Claim C9: `unload_media()` -/

/-- Claim C9 (amended): `unload_media()` resets `media_loaded`, `duration`,
`current_time`, `media_path` and `is_playing` to their construction values,
fully clears the loop (`is_looping = false`, `loop_elements = []`) and emits
a media-unloaded notification; `playback_start` and `playback_end`, however,
are not reset and keep their previous values. -/
theorem C9_unload_media (s : PlayerState) :
    (unload_media s).1.is_media_loaded = false ∧ (unload_media s).1.duration = 0 ∧
    (unload_media s).1.current_time = 0 ∧ (unload_media s).1.media_path = "" ∧
    (unload_media s).1.is_playing = false ∧ (unload_media s).1.is_looping = false ∧
    (unload_media s).1.loop_elements = [] ∧
    (unload_media s).1.playback_start = s.playback_start ∧
    (unload_media s).1.playback_end = s.playback_end ∧
    Event.postMediaUnloaded ∈ (unload_media s).2 := by
  unfold unload_media removeLoopElementsUI
  refine ⟨rfl, rfl, rfl, rfl, rfl, rfl, rfl, rfl, rfl, ?_⟩
  simp

/-- Claim C9 counterexample: after loading media with a playback window
starting at `2`, unloading leaves `playback_start = 2`, not its construction
value `0` — so not every `PlaybackState` field is reset. -/
theorem C9_counterexample :
    (unload_media (on_media_load_done initState "m" 2).1).1.playback_start = 2 ∧
    initState.playback_start = 0 := by
  refine ⟨by decide, by decide⟩

/-! ### Claim C10: `unload_media()` does not disarm the polling scheduler -/

/-- Claim C10: `unload_media` leaves the timer exactly as armed as it was
(while forcing `is_playing = false`), and none of the seek/loop operations
touch the timer either; only `toggle_play(false)` and a non-early-returning
`stop()` disarm it. -/
theorem C10_unload_keeps_timer (s : PlayerState) (env : Env)
    (sel : List (Nat × Nat)) (t : ℚ) (b : Bool) :
    ((unload_media s).1.timer_on = s.timer_on ∧ (unload_media s).1.is_playing = false) ∧
    (on_seek s t b).1.timer_on = s.timer_on ∧
    (toggle_loop env sel s b).1.timer_on = s.timer_on ∧
    (update_loop_elements env s).1.timer_on = s.timer_on ∧
    (cancel_loop s).1.timer_on = s.timer_on ∧
    (¬s.media_path = "" → (toggle_play s false).1.timer_on = false) ∧
    ((s.is_playing = true ∨ ¬s.current_time = 0) → (stop s).1.timer_on = false) := by
  have hupd : ∀ (e : Env) (s' : PlayerState),
      (update_loop_elements e s').1.timer_on = s'.timer_on := by
    intro e s'
    unfold update_loop_elements
    by_cases h : s'.loop_elements = []
    · simp [h, removeLoopElementsUI]
    · rw [if_neg h]
      rcases hc : check_loop_continuity (s'.loop_elements.map e.resolve) with _ | ⟨cb, cm, cM⟩
      · rfl
      · by_cases hb : cb = false
        · simp [hb, removeLoopElementsUI]
        · simp [hb, removeLoopElementsUI]
  refine ⟨⟨?_, rfl⟩, ?_, ?_, hupd env s, ?_, ?_, ?_⟩
  · unfold unload_media removeLoopElementsUI
    rfl
  · unfold on_seek check_seek_outside_loop removeLoopElementsUI
    by_cases h1 : b = true ∧ s.is_playing = true
    · rw [if_pos h1]
    · rw [if_neg h1]
      by_cases h2 : s.is_media_loaded = true
      · rw [if_pos h2]
        by_cases h3 : s.is_looping = true ∧ (t > s.loop_end + E ∨ t < s.loop_start - E)
        · rw [if_pos h3]
        · rw [if_neg h3]
      · rw [if_neg h2]
  · unfold toggle_loop
    by_cases h : b = true
    · rw [if_pos h]; exact hupd env { s with loop_elements := sel }
    · rw [if_neg h]; unfold removeLoopElementsUI; rfl
  · unfold cancel_loop removeLoopElementsUI
    by_cases h : s.is_looping = true
    · rw [if_pos h]
    · rw [if_neg h]
  · intro h
    unfold toggle_play
    rw [if_neg h]
    rfl
  · intro h
    unfold stop
    have hcond : ¬(s.is_playing = false ∧ s.current_time = 0) := by
      rcases h with h | h
      · intro hc; rw [h] at hc; exact absurd hc.1 (by simp)
      · intro hc; exact h hc.2
    rw [if_neg hcond]
    by_cases hl : s.is_looping = true
    · simp [hl, removeLoopElementsUI]
    · simp [hl]

/-- Claim C10 witness: a playing state with the timer armed keeps it armed
across `unload_media`, and `stop()` disarms it. -/
theorem C10_witness :
    (unload_media { initState with timer_on := true, is_playing := true }).1.timer_on = true ∧
    (stop { initState with timer_on := true, is_playing := true }).1.timer_on = false := by
  have h := C10_unload_keeps_timer { initState with timer_on := true, is_playing := true }
    ⟨0, fun _ => (0, 0)⟩ [] 0 false
  exact ⟨h.1.1, h.2.2.2.2.2.2 (Or.inl rfl)⟩

/-! ### Claim C7: seeking outside the loop window cancels the loop -/

/-- Claim C7: with media loaded and a loop active, a seek strictly outside
`[loop_start - E, loop_end + E]` synchronously cancels the loop — the final
state has `is_looping = false` and empty `loop_elements`, and the emitted
events are the region un-flag calls, then loop-toggled(false), then
loop-changed(0, 0), then the engine seek and time-changed(SEEK) — while a
seek anywhere inside that window leaves every loop field untouched. -/
theorem C7_seek_outside_loop (s : PlayerState) (t : ℚ)
    (hm : s.is_media_loaded = true) (hl : s.is_looping = true) :
    ((t > s.loop_end + E ∨ t < s.loop_start - E) →
      on_seek s t false =
        ({ s with is_looping := false, loop_elements := [], current_time := t },
         (s.loop_elements.map fun e => Event.elemLoopSet e.1 e.2 false) ++
           [Event.postUIUpdate .toggleLoop false, Event.postCurrentLoopChanged 0 0,
            Event.engineSeek t, Event.postCurrentTimeChanged t .seek])) ∧
    ((s.loop_start - E ≤ t ∧ t ≤ s.loop_end + E) →
      (on_seek s t false).1.is_looping = s.is_looping ∧
      (on_seek s t false).1.loop_start = s.loop_start ∧
      (on_seek s t false).1.loop_end = s.loop_end ∧
      (on_seek s t false).1.loop_elements = s.loop_elements) := by
  constructor
  · intro hout
    unfold on_seek check_seek_outside_loop removeLoopElementsUI
    rw [if_neg (by simp), if_pos hm, if_pos ⟨hl, by tauto⟩]
    simp
  · intro hin
    have hno : ¬(s.is_looping = true ∧ (t > s.loop_end + E ∨ t < s.loop_start - E)) := by
      rintro ⟨-, h | h⟩
      · exact absurd hin.2 (not_le.mpr h)
      · exact absurd hin.1 (not_le.mpr h)
    unfold on_seek check_seek_outside_loop
    rw [if_neg (by simp), if_pos hm, if_neg hno]
    exact ⟨rfl, rfl, rfl, rfl⟩

/-- Claim C7 witness: a loop over `[2, 5]`, a seek to `100` (outside) and a
seek to `3` (inside). -/
theorem C7_witness :
    stateC4.is_media_loaded = true ∧ stateC4.is_looping = true ∧
    (on_seek stateC4 100 false).1.is_looping = false ∧
    (on_seek stateC4 3 false).1.is_looping = true := by
  have h1 : stateC4.is_media_loaded = true := by rw [stateC4_eq]
  have h2 : stateC4.is_looping = true := by rw [stateC4_eq]
  have hout := (C7_seek_outside_loop stateC4 100 h1 h2).1
    (Or.inl (show (100 : ℚ) > stateC4.loop_end + E by rw [stateC4_eq, E_eq]; norm_num))
  have hin := (C7_seek_outside_loop stateC4 3 h1 h2).2
    (by rw [stateC4_eq, E_eq]; constructor <;> norm_num)
  refine ⟨h1, h2, ?_, ?_⟩
  · rw [hout]
  · exact hin.1.trans h2

/-! ### Claim C8: the loop-wrap scheduler tick -/

/-- Claim C8: a scheduler tick whose computed `current_time` reaches
`loop_end` while looping performs the internal seek to `loop_start` —
emitting exactly the engine seek and the single time-changed(SEEK)
notification of that seek — and emits no time-changed(PLAYBACK) for that
tick and does not call `stop()` (no engine stop, no stopping/stopped
notifications). -/
theorem C8_loop_wrap_tick (s : PlayerState) (engineTime : ℚ)
    (hl : s.is_looping = true) (hm : s.is_media_loaded = true)
    (hse : s.loop_start ≤ s.loop_end)
    (hwrap : engineTime - s.playback_start ≥ s.loop_end) :
    play_loop s engineTime =
      ({ s with current_time := s.loop_start },
       [Event.engineSeek s.loop_start, Event.postCurrentTimeChanged s.loop_start .seek]) ∧
    (∀ t, Event.postCurrentTimeChanged t .playback ∉ (play_loop s engineTime).2) ∧
    Event.engineStop ∉ (play_loop s engineTime).2 ∧
    Event.postStopping ∉ (play_loop s engineTime).2 := by
  have hmain : play_loop s engineTime =
      ({ s with current_time := s.loop_start },
       [Event.engineSeek s.loop_start, Event.postCurrentTimeChanged s.loop_start .seek]) := by
    unfold play_loop
    rw [if_pos ⟨hl, hwrap⟩]
    have hno : ¬((({ s with current_time := engineTime - s.playback_start } :
        PlayerState).is_looping = true) ∧
        (({ s with current_time := engineTime - s.playback_start } :
          PlayerState).loop_start >
            ({ s with current_time := engineTime - s.playback_start } :
              PlayerState).loop_end + E ∨
         ({ s with current_time := engineTime - s.playback_start } :
            PlayerState).loop_start <
            ({ s with current_time := engineTime - s.playback_start } :
              PlayerState).loop_start - E)) := by
      rintro ⟨-, h | h⟩
      · exact absurd h (not_lt.mpr (le_trans hse (le_add_of_nonneg_right E_nonneg)))
      · exact absurd h (not_lt.mpr (sub_le_self _ E_nonneg))
    unfold on_seek check_seek_outside_loop
    rw [if_neg (by simp), if_pos hm, if_neg hno]
    simp
  refine ⟨hmain, ?_, ?_, ?_⟩ <;> rw [hmain] <;> simp

/-- Claim C8 witness: a tick reaching the loop end of `[2, 5]` at engine
time `7`. -/
theorem C8_witness :
    stateC4.is_looping = true ∧ stateC4.is_media_loaded = true ∧
    (7 : ℚ) - stateC4.playback_start ≥ stateC4.loop_end ∧
    play_loop stateC4 7 =
      ({ stateC4 with current_time := stateC4.loop_start },
       [Event.engineSeek stateC4.loop_start,
        Event.postCurrentTimeChanged stateC4.loop_start .seek]) := by
  have h7 : (7 : ℚ) - stateC4.playback_start ≥ stateC4.loop_end := by
    rw [stateC4_eq]; norm_num
  refine ⟨by rw [stateC4_eq], by rw [stateC4_eq], h7, ?_⟩
  exact (C8_loop_wrap_tick stateC4 7 (by rw [stateC4_eq]) (by rw [stateC4_eq])
    (by rw [stateC4_eq]; norm_num) h7).1

/-! ### Dictionary lemmas for `_check_loop_continuity` -/

theorem lookupNode_markVisited (g : Graph) (q k : ℚ) :
    lookupNode (markVisited g q) k =
      if k = q then (lookupNode g k).map (fun ni => ⟨true, ni.nbrs⟩)
      else lookupNode g k := by
  induction g with
  | nil => by_cases h : k = q <;> simp [markVisited, lookupNode, h]
  | cons a rest ih =>
    obtain ⟨ka, nia⟩ := a
    by_cases h1 : ka = q
    · subst h1
      by_cases h2 : ka = k
      · subst h2
        simp [markVisited, lookupNode]
      · have h2' : ¬k = ka := fun hh => h2 hh.symm
        simp [markVisited, lookupNode, h2, h2']
    · by_cases h2 : ka = k
      · subst h2
        simp [markVisited, lookupNode, h1]
      · simp [markVisited, lookupNode, h1, h2, ih]

theorem keysOf_markVisited (g : Graph) (q : ℚ) :
    keysOf (markVisited g q) = keysOf g := by
  induction g with
  | nil => rfl
  | cons a rest ih =>
    obtain ⟨ka, nia⟩ := a
    by_cases h : ka = q <;> simp_all [markVisited, keysOf]

theorem unvisitedCount_markVisited_le (g : Graph) (q : ℚ) :
    unvisitedCount (markVisited g q) ≤ unvisitedCount g := by
  induction g with
  | nil => exact le_refl _
  | cons a rest ih =>
    obtain ⟨ka, nia⟩ := a
    by_cases h : ka = q
    · by_cases hv : nia.visited <;> simp [markVisited, h, unvisitedCount, hv]
    · simp only [markVisited, if_neg h, unvisitedCount]
      omega

theorem unvisitedCount_markVisited_succ_le (g : Graph) (q : ℚ) (ni : NodeInfo)
    (hl : lookupNode g q = some ni) (hv : ni.visited = false) :
    unvisitedCount (markVisited g q) + 1 ≤ unvisitedCount g := by
  induction g with
  | nil => simp [lookupNode] at hl
  | cons a rest ih =>
    obtain ⟨ka, nia⟩ := a
    by_cases h : ka = q
    · have : nia = ni := by
        rw [lookupNode, if_pos h] at hl
        exact Option.some.inj hl
      subst this
      simp only [markVisited, if_pos h, unvisitedCount, hv]
      simp
      omega
    · rw [lookupNode, if_neg h] at hl
      have := ih hl
      simp only [markVisited, if_neg h, unvisitedCount]
      omega

theorem isKey_iff_mem_keysOf (g : Graph) (k : ℚ) : IsKey g k ↔ k ∈ keysOf g := by
  induction g with
  | nil => simp [IsKey, lookupNode, keysOf]
  | cons a rest ih =>
    obtain ⟨ka, nia⟩ := a
    by_cases h : ka = k
    · subst h
      simp [IsKey, lookupNode, keysOf]
    · have hstep : IsKey ((ka, nia) :: rest) k ↔ IsKey rest k := by
        unfold IsKey
        rw [lookupNode, if_neg h]
      have h' : ¬k = ka := fun hh => h hh.symm
      rw [hstep, ih]
      simp [keysOf, h']

theorem visited_isKey {g : Graph} {k : ℚ} (h : Visited g k) : IsKey g k :=
  ⟨h.choose, h.choose_spec.1⟩

/-! ### The `Evolves` relation -/

theorem evolves_refl (g : Graph) : Evolves g g :=
  ⟨fun _ => rfl, fun _ h => h, rfl, le_refl _⟩

theorem evolves_trans {g1 g2 g3 : Graph} (h12 : Evolves g1 g2) (h23 : Evolves g2 g3) :
    Evolves g1 g3 :=
  ⟨fun k => (h23.1 k).trans (h12.1 k), fun k hv => h23.2.1 k (h12.2.1 k hv),
   h23.2.2.1.trans h12.2.2.1, le_trans h23.2.2.2 h12.2.2.2⟩

theorem evolves_markVisited (g : Graph) (q : ℚ) : Evolves g (markVisited g q) := by
  refine ⟨?_, ?_, keysOf_markVisited g q, unvisitedCount_markVisited_le g q⟩
  · intro k
    rw [lookupNode_markVisited]
    by_cases h : k = q
    · rw [if_pos h]
      cases lookupNode g k <;> simp
    · rw [if_neg h]
  · intro k hv
    obtain ⟨ni, hl, hvis⟩ := hv
    by_cases h : k = q
    · refine ⟨⟨true, ni.nbrs⟩, ?_, rfl⟩
      rw [lookupNode_markVisited, if_pos h, hl]
      rfl
    · refine ⟨ni, ?_, hvis⟩
      rw [lookupNode_markVisited, if_neg h]
      exact hl

theorem evolves_lookup_nbrs {g g' : Graph} (h : Evolves g g') {k : ℚ} {ni : NodeInfo}
    (hl : lookupNode g k = some ni) :
    ∃ ni', lookupNode g' k = some ni' ∧ ni'.nbrs = ni.nbrs := by
  have hmap := h.1 k
  rw [hl] at hmap
  cases hg' : lookupNode g' k with
  | none => rw [hg'] at hmap; simp at hmap
  | some ni' =>
    rw [hg'] at hmap
    simp at hmap
    exact ⟨ni', rfl, hmap⟩

theorem evolves_lookup_nbrs_rev {g g' : Graph} (h : Evolves g g') {k : ℚ} {ni' : NodeInfo}
    (hl : lookupNode g' k = some ni') :
    ∃ ni, lookupNode g k = some ni ∧ ni.nbrs = ni'.nbrs := by
  have hmap := h.1 k
  rw [hl] at hmap
  cases hg : lookupNode g k with
  | none => rw [hg] at hmap; simp at hmap
  | some ni =>
    rw [hg] at hmap
    simp at hmap
    exact ⟨ni, rfl, hmap.symm⟩

theorem evolves_isKey {g g' : Graph} (h : Evolves g g') (k : ℚ) :
    IsKey g' k ↔ IsKey g k := by
  constructor
  · rintro ⟨ni', hl⟩
    obtain ⟨ni, hl2, -⟩ := evolves_lookup_nbrs_rev h hl
    exact ⟨ni, hl2⟩
  · rintro ⟨ni, hl⟩
    obtain ⟨ni', hl2, -⟩ := evolves_lookup_nbrs h hl
    exact ⟨ni', hl2⟩

theorem evolves_edgeOf {g g' : Graph} (h : Evolves g g') (a b : ℚ) :
    EdgeOf g' a b ↔ EdgeOf g a b := by
  constructor
  · rintro ⟨ni', hl, hb⟩
    obtain ⟨ni, hl2, hn⟩ := evolves_lookup_nbrs_rev h hl
    exact ⟨ni, hl2, hn ▸ hb⟩
  · rintro ⟨ni, hl, hb⟩
    obtain ⟨ni', hl2, hn⟩ := evolves_lookup_nbrs h hl
    exact ⟨ni', hl2, hn.symm ▸ hb⟩

theorem reflTransGen_congr {α : Type} {r r' : α → α → Prop}
    (h : ∀ x y, r x y ↔ r' x y) {a b : α} :
    Relation.ReflTransGen r a b ↔ Relation.ReflTransGen r' a b :=
  ⟨Relation.ReflTransGen.mono (fun x y hr => (h x y).mp hr),
   Relation.ReflTransGen.mono (fun x y hr => (h x y).mpr hr)⟩

theorem evolves_reach {g g' : Graph} (h : Evolves g g') (a b : ℚ) :
    Reach g' a b ↔ Reach g a b :=
  reflTransGen_congr (evolves_edgeOf h)

theorem evolves_not_visited {g g' : Graph} (h : Evolves g g') {k : ℚ}
    (hv : ¬Visited g' k) : ¬Visited g k :=
  fun hk => hv (h.2.1 k hk)

theorem evolves_nbrsClosed {g g' : Graph} (h : Evolves g g') (hN : NbrsClosed g) :
    NbrsClosed g' := by
  intro k ni' hl v hv
  obtain ⟨ni, hl2, hn⟩ := evolves_lookup_nbrs_rev h hl
  exact (evolves_isKey h v).mpr (hN k ni hl2 v (hn ▸ hv))

/-! ### Evolution and soundness of the `dfs` traversal -/

theorem dfsNbrs_evolves (dfsF : Graph → ℚ → ℚ → ℚ → Graph × ℚ × ℚ)
    (hF : ∀ g i c1 c2, Evolves g (dfsF g i c1 c2).1) :
    ∀ (ns : List ℚ) (g : Graph) (c1 c2 : ℚ), Evolves g (dfsNbrs dfsF g ns c1 c2).1 := by
  intro ns
  induction ns with
  | nil => intro g c1 c2; exact evolves_refl g
  | cons n rest ih =>
    intro g c1 c2
    simp only [dfsNbrs]
    exact evolves_trans (hF g n (min n c1) (max n c2)) (ih _ _ _)

theorem dfs_evolves : ∀ (fuel : Nat) (g : Graph) (i c1 c2 : ℚ),
    Evolves g (dfs fuel g i c1 c2).1 := by
  intro fuel
  induction fuel with
  | zero => intro g i c1 c2; exact evolves_refl g
  | succ fuel ih =>
    intro g i c1 c2
    simp only [dfs]
    split
    · exact evolves_refl g
    · split
      · exact evolves_refl g
      · exact evolves_trans (evolves_markVisited g i) (dfsNbrs_evolves _ ih _ _ _ _)

theorem visited_of_lookup_unvisited {g : Graph} {i : ℚ} {ni : NodeInfo}
    (hl : lookupNode g i = some ni) (hv : ¬ni.visited = true) : ¬Visited g i := by
  rintro ⟨ni', hl', hv'⟩
  rw [hl] at hl'
  exact hv (Option.some.inj hl' ▸ hv')

theorem visited_markVisited_self {g : Graph} {i : ℚ} {ni : NodeInfo}
    (hl : lookupNode g i = some ni) : Visited (markVisited g i) i := by
  refine ⟨⟨true, ni.nbrs⟩, ?_, rfl⟩
  rw [lookupNode_markVisited, if_pos rfl, hl]
  rfl

theorem not_visited_markVisited {g : Graph} {i k : ℚ} (hik : ¬k = i)
    (h : ¬Visited (markVisited g i) k) : ¬Visited g k := by
  rintro ⟨ni, hl, hv⟩
  exact h ⟨ni, by rw [lookupNode_markVisited, if_neg hik]; exact hl, hv⟩

theorem lookup_markVisited_ne {g : Graph} {i k : ℚ} (hik : ¬k = i) :
    lookupNode (markVisited g i) k = lookupNode g k := by
  rw [lookupNode_markVisited, if_neg hik]

theorem dfsNbrs_sound (dfsF : Graph → ℚ → ℚ → ℚ → Graph × ℚ × ℚ)
    (hFe : ∀ g i c1 c2, Evolves g (dfsF g i c1 c2).1)
    (hFs : ∀ g i c1 c2 k, ¬Visited g k → Visited (dfsF g i c1 c2).1 k → Reach g i k) :
    ∀ (ns : List ℚ) (g : Graph) (c1 c2 k : ℚ), ¬Visited g k →
      Visited (dfsNbrs dfsF g ns c1 c2).1 k → ∃ n ∈ ns, Reach g n k := by
  intro ns
  induction ns with
  | nil =>
    intro g c1 c2 k hnv hv
    simp only [dfsNbrs] at hv
    exact absurd hv hnv
  | cons n rest ih =>
    intro g c1 c2 k hnv hv
    simp only [dfsNbrs] at hv
    by_cases hmid : Visited (dfsF g n (min n c1) (max n c2)).1 k
    · exact ⟨n, List.mem_cons_self _ _, hFs _ _ _ _ _ hnv hmid⟩
    · obtain ⟨m, hm, hr⟩ := ih _ _ _ _ hmid hv
      exact ⟨m, List.mem_cons_of_mem _ hm, (evolves_reach (hFe g n _ _) m k).mp hr⟩

theorem dfs_sound : ∀ (fuel : Nat) (g : Graph) (i c1 c2 k : ℚ), ¬Visited g k →
    Visited (dfs fuel g i c1 c2).1 k → Reach g i k := by
  intro fuel
  induction fuel with
  | zero =>
    intro g i c1 c2 k hnv hv
    simp only [dfs] at hv
    exact absurd hv hnv
  | succ fuel ih =>
    intro g i c1 c2 k hnv hv
    simp only [dfs] at hv
    split at hv
    · exact absurd hv hnv
    · rename_i ni hl
      split at hv
      · exact absurd hv hnv
      · by_cases hik : k = i
        · subst hik
          exact Relation.ReflTransGen.refl
        · have hnv1 : ¬Visited (markVisited g i) k := by
            rintro ⟨ni', hl', hv'⟩
            rw [lookup_markVisited_ne hik] at hl'
            exact hnv ⟨ni', hl', hv'⟩
          obtain ⟨n, hn, hr⟩ := dfsNbrs_sound (dfs fuel) (dfs_evolves fuel) ih
            ni.nbrs (markVisited g i) c1 c2 k hnv1 hv
          have hr' : Reach g n k := (evolves_reach (evolves_markVisited g i) n k).mp hr
          exact Relation.ReflTransGen.head ⟨ni, hl, hn⟩ hr'

/-! ### Bounds on the `dfs` min/max accumulators -/

theorem dfsNbrs_bounds (dfsF : Graph → ℚ → ℚ → ℚ → Graph × ℚ × ℚ)
    (hFb : ∀ g i c1 c2, c1 ≤ i → i ≤ c2 →
      (dfsF g i c1 c2).2.1 ≤ c1 ∧ c2 ≤ (dfsF g i c1 c2).2.2 ∧
      ∀ k, ¬Visited g k → Visited (dfsF g i c1 c2).1 k →
        (dfsF g i c1 c2).2.1 ≤ k ∧ k ≤ (dfsF g i c1 c2).2.2) :
    ∀ (ns : List ℚ) (g : Graph) (c1 c2 : ℚ),
      (dfsNbrs dfsF g ns c1 c2).2.1 ≤ c1 ∧ c2 ≤ (dfsNbrs dfsF g ns c1 c2).2.2 ∧
      ∀ k, ¬Visited g k → Visited (dfsNbrs dfsF g ns c1 c2).1 k →
        (dfsNbrs dfsF g ns c1 c2).2.1 ≤ k ∧ k ≤ (dfsNbrs dfsF g ns c1 c2).2.2 := by
  intro ns
  induction ns with
  | nil =>
    intro g c1 c2
    refine ⟨le_refl _, le_refl _, fun k hnv hv => ?_⟩
    simp only [dfsNbrs] at hv
    exact absurd hv hnv
  | cons n rest ih =>
    intro g c1 c2
    have hb := hFb g n (min n c1) (max n c2) (min_le_left n c1) (le_max_left n c2)
    have hrec := ih (dfsF g n (min n c1) (max n c2)).1
      (min (dfsF g n (min n c1) (max n c2)).2.1 c1)
      (max (dfsF g n (min n c1) (max n c2)).2.2 c2)
    refine ⟨?_, ?_, ?_⟩
    · simp only [dfsNbrs]
      exact le_trans hrec.1 (min_le_right _ _)
    · simp only [dfsNbrs]
      exact le_trans (le_max_right _ _) hrec.2.1
    · intro k hnv hv
      simp only [dfsNbrs] at hv ⊢
      by_cases hmid : Visited (dfsF g n (min n c1) (max n c2)).1 k
      · have hk := hb.2.2 k hnv hmid
        constructor
        · exact le_trans (le_trans hrec.1 (min_le_left _ _)) hk.1
        · exact le_trans hk.2 (le_trans (le_max_left _ _) hrec.2.1)
      · exact hrec.2.2 k hmid hv

theorem dfs_bounds : ∀ (fuel : Nat) (g : Graph) (i c1 c2 : ℚ), c1 ≤ i → i ≤ c2 →
    (dfs fuel g i c1 c2).2.1 ≤ c1 ∧ c2 ≤ (dfs fuel g i c1 c2).2.2 ∧
    ∀ k, ¬Visited g k → Visited (dfs fuel g i c1 c2).1 k →
      (dfs fuel g i c1 c2).2.1 ≤ k ∧ k ≤ (dfs fuel g i c1 c2).2.2 := by
  intro fuel
  induction fuel with
  | zero =>
    intro g i c1 c2 h1 h2
    exact ⟨le_refl _, le_refl _, fun k hnv hv => absurd hv hnv⟩
  | succ fuel ih =>
    intro g i c1 c2 h1 h2
    simp only [dfs]
    split
    · exact ⟨le_refl _, le_refl _, fun k hnv hv => absurd hv hnv⟩
    · rename_i ni hl
      split
      · exact ⟨le_refl _, le_refl _, fun k hnv hv => absurd hv hnv⟩
      · rename_i hnvis
        have hb := dfsNbrs_bounds (dfs fuel) (fun g i c1 c2 ha hb => ih g i c1 c2 ha hb)
          ni.nbrs (markVisited g i) c1 c2
        refine ⟨hb.1, hb.2.1, fun k hnv hv => ?_⟩
        by_cases hik : k = i
        · subst hik
          exact ⟨le_trans hb.1 h1, le_trans h2 hb.2.1⟩
        · refine hb.2.2 k ?_ hv
          rintro ⟨ni', hl', hv'⟩
          rw [lookup_markVisited_ne hik] at hl'
          exact hnv ⟨ni', hl', hv'⟩

/-! ### Origin of the `dfs` min/max accumulators -/

theorem dfsNbrs_mem (dfsF : Graph → ℚ → ℚ → ℚ → Graph × ℚ × ℚ)
    (hFe : ∀ g i c1 c2, Evolves g (dfsF g i c1 c2).1)
    (hFm : ∀ g i c1 c2,
      ((dfsF g i c1 c2).2.1 = c1 ∨ ∃ k ni, ¬Visited g k ∧ Visited (dfsF g i c1 c2).1 k ∧
        lookupNode g k = some ni ∧ (dfsF g i c1 c2).2.1 ∈ ni.nbrs) ∧
      ((dfsF g i c1 c2).2.2 = c2 ∨ ∃ k ni, ¬Visited g k ∧ Visited (dfsF g i c1 c2).1 k ∧
        lookupNode g k = some ni ∧ (dfsF g i c1 c2).2.2 ∈ ni.nbrs)) :
    ∀ (ns : List ℚ) (g : Graph) (c1 c2 : ℚ),
      ((dfsNbrs dfsF g ns c1 c2).2.1 = c1 ∨ (dfsNbrs dfsF g ns c1 c2).2.1 ∈ ns ∨
        ∃ k ni, ¬Visited g k ∧ Visited (dfsNbrs dfsF g ns c1 c2).1 k ∧
          lookupNode g k = some ni ∧ (dfsNbrs dfsF g ns c1 c2).2.1 ∈ ni.nbrs) ∧
      ((dfsNbrs dfsF g ns c1 c2).2.2 = c2 ∨ (dfsNbrs dfsF g ns c1 c2).2.2 ∈ ns ∨
        ∃ k ni, ¬Visited g k ∧ Visited (dfsNbrs dfsF g ns c1 c2).1 k ∧
          lookupNode g k = some ni ∧ (dfsNbrs dfsF g ns c1 c2).2.2 ∈ ni.nbrs) := by
  intro ns
  induction ns with
  | nil =>
    intro g c1 c2
    exact ⟨Or.inl rfl, Or.inl rfl⟩
  | cons n rest ih =>
    intro g c1 c2
    set F : Graph × ℚ × ℚ := dfsF g n (min n c1) (max n c2) with hFdef
    set res : Graph × ℚ × ℚ := dfsNbrs dfsF F.1 rest (min F.2.1 c1) (max F.2.2 c2) with hresdef
    have hEr : Evolves g F.1 := hFe g n _ _
    have hErest : Evolves F.1 res.1 := dfsNbrs_evolves dfsF hFe rest _ _ _
    have hrec := ih F.1 (min F.2.1 c1) (max F.2.2 c2)
    have hm := hFm g n (min n c1) (max n c2)
    have hlift : ∀ v : ℚ, (∃ k ni, ¬Visited g k ∧ Visited F.1 k ∧
        lookupNode g k = some ni ∧ v ∈ ni.nbrs) →
        ∃ k ni, ¬Visited g k ∧ Visited res.1 k ∧ lookupNode g k = some ni ∧ v ∈ ni.nbrs := by
      rintro v ⟨k, ni, hnv, hvk, hlk, hvn⟩
      exact ⟨k, ni, hnv, hErest.2.1 k hvk, hlk, hvn⟩
    have hshift : ∀ v : ℚ, (∃ k ni, ¬Visited F.1 k ∧ Visited res.1 k ∧
        lookupNode F.1 k = some ni ∧ v ∈ ni.nbrs) →
        ∃ k ni, ¬Visited g k ∧ Visited res.1 k ∧ lookupNode g k = some ni ∧ v ∈ ni.nbrs := by
      rintro v ⟨k, ni, hnv, hvk, hlk, hvn⟩
      obtain ⟨ni0, hl0, hn0⟩ := evolves_lookup_nbrs_rev hEr hlk
      exact ⟨k, ni0, evolves_not_visited hEr hnv, hvk, hl0, hn0 ▸ hvn⟩
    constructor
    · have hgoal : res.2.1 = c1 ∨ res.2.1 ∈ n :: rest ∨
          ∃ k ni, ¬Visited g k ∧ Visited res.1 k ∧
            lookupNode g k = some ni ∧ res.2.1 ∈ ni.nbrs := by
        rcases hrec.1 with hcase | hcase | hcase
        · rcases min_choice F.2.1 c1 with hmc | hmc
          · have hv1 : res.2.1 = F.2.1 := hcase.trans hmc
            rcases hm.1 with hfm | hfm
            · rcases min_choice n c1 with hnc | hnc
              · exact Or.inr (Or.inl (by rw [hv1, hfm, hnc]; exact List.mem_cons_self _ _))
              · exact Or.inl (by rw [hv1, hfm, hnc])
            · refine Or.inr (Or.inr ?_)
              rw [hv1]
              exact hlift _ hfm
          · exact Or.inl (hcase.trans hmc)
        · exact Or.inr (Or.inl (List.mem_cons_of_mem _ hcase))
        · exact Or.inr (Or.inr (hshift _ hcase))
      exact hgoal
    · have hgoal : res.2.2 = c2 ∨ res.2.2 ∈ n :: rest ∨
          ∃ k ni, ¬Visited g k ∧ Visited res.1 k ∧
            lookupNode g k = some ni ∧ res.2.2 ∈ ni.nbrs := by
        rcases hrec.2 with hcase | hcase | hcase
        · rcases max_choice F.2.2 c2 with hmc | hmc
          · have hv2 : res.2.2 = F.2.2 := hcase.trans hmc
            rcases hm.2 with hfm | hfm
            · rcases max_choice n c2 with hnc | hnc
              · exact Or.inr (Or.inl (by rw [hv2, hfm, hnc]; exact List.mem_cons_self _ _))
              · exact Or.inl (by rw [hv2, hfm, hnc])
            · refine Or.inr (Or.inr ?_)
              rw [hv2]
              exact hlift _ hfm
          · exact Or.inl (hcase.trans hmc)
        · exact Or.inr (Or.inl (List.mem_cons_of_mem _ hcase))
        · exact Or.inr (Or.inr (hshift _ hcase))
      exact hgoal

theorem dfs_mem : ∀ (fuel : Nat) (g : Graph) (i c1 c2 : ℚ),
    ((dfs fuel g i c1 c2).2.1 = c1 ∨ ∃ k ni, ¬Visited g k ∧ Visited (dfs fuel g i c1 c2).1 k ∧
      lookupNode g k = some ni ∧ (dfs fuel g i c1 c2).2.1 ∈ ni.nbrs) ∧
    ((dfs fuel g i c1 c2).2.2 = c2 ∨ ∃ k ni, ¬Visited g k ∧ Visited (dfs fuel g i c1 c2).1 k ∧
      lookupNode g k = some ni ∧ (dfs fuel g i c1 c2).2.2 ∈ ni.nbrs) := by
  intro fuel
  induction fuel with
  | zero => intro g i c1 c2; exact ⟨Or.inl rfl, Or.inl rfl⟩
  | succ fuel ih =>
    intro g i c1 c2
    simp only [dfs]
    split
    · exact ⟨Or.inl rfl, Or.inl rfl⟩
    · rename_i ni hl
      split
      · exact ⟨Or.inl rfl, Or.inl rfl⟩
      · rename_i hnvis
        have hnvg : ¬Visited g i := visited_of_lookup_unvisited hl hnvis
        have hvis1 : Visited (dfsNbrs (dfs fuel) (markVisited g i) ni.nbrs c1 c2).1 i :=
          (dfsNbrs_evolves (dfs fuel) (dfs_evolves fuel) ni.nbrs _ c1 c2).2.1 i
            (visited_markVisited_self hl)
        have hres := dfsNbrs_mem (dfs fuel) (dfs_evolves fuel) ih ni.nbrs (markVisited g i) c1 c2
        have hconv : ∀ v, (v ∈ ni.nbrs ∨
            ∃ k nk, ¬Visited (markVisited g i) k ∧
              Visited (dfsNbrs (dfs fuel) (markVisited g i) ni.nbrs c1 c2).1 k ∧
              lookupNode (markVisited g i) k = some nk ∧ v ∈ nk.nbrs) →
            ∃ k nk, ¬Visited g k ∧ Visited (dfsNbrs (dfs fuel) (markVisited g i) ni.nbrs c1 c2).1 k ∧
              lookupNode g k = some nk ∧ v ∈ nk.nbrs := by
          rintro v (hv | ⟨k, nk, hnv, hvk, hlk, hvn⟩)
          · exact ⟨i, ni, hnvg, hvis1, hl, hv⟩
          · have hik : ¬k = i := by
              intro hk
              subst hk
              exact hnv (visited_markVisited_self hl)
            rw [lookup_markVisited_ne hik] at hlk
            exact ⟨k, nk, not_visited_markVisited hik hnv, hvk, hlk, hvn⟩
        constructor
        · rcases hres.1 with hcase | hcase | hcase
          · exact Or.inl hcase
          · exact Or.inr (hconv _ (Or.inl hcase))
          · exact Or.inr (hconv _ (Or.inr hcase))
        · rcases hres.2 with hcase | hcase | hcase
          · exact Or.inl hcase
          · exact Or.inr (hconv _ (Or.inl hcase))
          · exact Or.inr (hconv _ (Or.inr hcase))

/-! ### Completeness of the `dfs` traversal under sufficient fuel -/

theorem dfsNbrs_complete (fuel : Nat) (dfsF : Graph → ℚ → ℚ → ℚ → Graph × ℚ × ℚ)
    (hFe : ∀ g i c1 c2, Evolves g (dfsF g i c1 c2).1)
    (hFc : ∀ g i c1 c2, unvisitedCount g + 1 ≤ fuel →
      (IsKey g i → Visited (dfsF g i c1 c2).1 i) ∧
      (∀ k, ¬Visited g k → Visited (dfsF g i c1 c2).1 k →
        ∀ ni, lookupNode g k = some ni → ∀ m ∈ ni.nbrs, IsKey g m →
          Visited (dfsF g i c1 c2).1 m)) :
    ∀ (ns : List ℚ) (g : Graph) (c1 c2 : ℚ), unvisitedCount g + 1 ≤ fuel →
      (∀ n ∈ ns, IsKey g n → Visited (dfsNbrs dfsF g ns c1 c2).1 n) ∧
      (∀ k, ¬Visited g k → Visited (dfsNbrs dfsF g ns c1 c2).1 k →
        ∀ ni, lookupNode g k = some ni → ∀ m ∈ ni.nbrs, IsKey g m →
          Visited (dfsNbrs dfsF g ns c1 c2).1 m) := by
  intro ns
  induction ns with
  | nil =>
    intro g c1 c2 hfuel
    refine ⟨fun n hn => absurd hn (List.not_mem_nil n), fun k hnv hv => ?_⟩
    simp only [dfsNbrs] at hv
    exact absurd hv hnv
  | cons n rest ih =>
    intro g c1 c2 hfuel
    set F : Graph × ℚ × ℚ := dfsF g n (min n c1) (max n c2) with hFdef
    set res : Graph × ℚ × ℚ := dfsNbrs dfsF F.1 rest (min F.2.1 c1) (max F.2.2 c2) with hresdef
    have hEr : Evolves g F.1 := hFe g n _ _
    have hErest : Evolves F.1 res.1 := dfsNbrs_evolves dfsF hFe rest _ _ _
    have hhead := hFc g n (min n c1) (max n c2) hfuel
    have hfuel1 : unvisitedCount F.1 + 1 ≤ fuel :=
      le_trans (Nat.add_le_add_right hEr.2.2.2 1) hfuel
    have hrec := ih F.1 (min F.2.1 c1) (max F.2.2 c2) hfuel1
    have hgoal :
        (∀ m ∈ n :: rest, IsKey g m → Visited res.1 m) ∧
        (∀ k, ¬Visited g k → Visited res.1 k →
          ∀ ni, lookupNode g k = some ni → ∀ m ∈ ni.nbrs, IsKey g m → Visited res.1 m) := by
      constructor
      · intro m hm hkey
        rcases List.mem_cons.mp hm with hm | hm
        · subst hm
          exact hErest.2.1 m (hhead.1 hkey)
        · exact hrec.1 m hm ((evolves_isKey hEr m).mpr hkey)
      · intro k hnv hv ni hl m hmn hkey
        by_cases hmid : Visited F.1 k
        · exact hErest.2.1 m (hhead.2 k hnv hmid ni hl m hmn hkey)
        · obtain ⟨ni', hl', hn'⟩ := evolves_lookup_nbrs hEr hl
          exact hrec.2 k hmid hv ni' hl' m (hn' ▸ hmn) ((evolves_isKey hEr m).mpr hkey)
    exact hgoal

theorem dfs_complete : ∀ (fuel : Nat) (g : Graph) (i c1 c2 : ℚ),
    unvisitedCount g + 1 ≤ fuel →
    (IsKey g i → Visited (dfs fuel g i c1 c2).1 i) ∧
    (∀ k, ¬Visited g k → Visited (dfs fuel g i c1 c2).1 k →
      ∀ ni, lookupNode g k = some ni → ∀ m ∈ ni.nbrs, IsKey g m →
        Visited (dfs fuel g i c1 c2).1 m) := by
  intro fuel
  induction fuel with
  | zero =>
    intro g i c1 c2 hfuel
    exact absurd hfuel (Nat.not_succ_le_zero _)
  | succ fuel ih =>
    intro g i c1 c2 hfuel
    simp only [dfs]
    split
    · rename_i hl
      refine ⟨fun hkey => ?_, fun k hnv hv => absurd hv hnv⟩
      obtain ⟨ni, hni⟩ := hkey
      rw [hl] at hni
      exact absurd hni (Option.noConfusion)
    · rename_i ni hl
      split
      · rename_i hvis
        exact ⟨fun _ => ⟨ni, hl, hvis⟩, fun k hnv hv => absurd hv hnv⟩
      · rename_i hnvis
        have hnvg : ¬Visited g i := visited_of_lookup_unvisited hl hnvis
        have hvf : ni.visited = false := by
          revert hnvis
          cases ni.visited <;> simp
        have hfuel1 : unvisitedCount (markVisited g i) + 1 ≤ fuel := by
          have hlt := unvisitedCount_markVisited_succ_le g i ni hl hvf
          omega
        have hres := dfsNbrs_complete fuel (dfs fuel) (dfs_evolves fuel) ih
          ni.nbrs (markVisited g i) c1 c2 hfuel1
        have hErest : Evolves (markVisited g i)
            (dfsNbrs (dfs fuel) (markVisited g i) ni.nbrs c1 c2).1 :=
          dfsNbrs_evolves (dfs fuel) (dfs_evolves fuel) ni.nbrs _ c1 c2
        constructor
        · intro _
          exact hErest.2.1 i (visited_markVisited_self hl)
        · intro k hnv hv nik hlk m hmn hkey
          by_cases hik : k = i
          · subst hik
            have hni : nik = ni := Option.some.inj (hlk.symm.trans hl)
            subst hni
            exact hres.1 m hmn ((evolves_isKey (evolves_markVisited g k) m).mpr hkey)
          · have hnv1 : ¬Visited (markVisited g i) k := by
              rintro ⟨ni', hl', hv'⟩
              rw [lookup_markVisited_ne hik] at hl'
              exact hnv ⟨ni', hl', hv'⟩
            refine hres.2 k hnv1 hv nik ?_ m hmn
              ((evolves_isKey (evolves_markVisited g i) m).mpr hkey)
            rw [lookup_markVisited_ne hik]
            exact hlk

/-! ### Closure of a `dfs` call under unvisited reachability -/

theorem dfs_marks_reachU (fuel : Nat) (g : Graph) (i c1 c2 : ℚ) (hN : NbrsClosed g)
    (hfuel : unvisitedCount g + 1 ≤ fuel) :
    ∀ a b, ReachU g a b → Visited (dfs fuel g i c1 c2).1 a →
      Visited (dfs fuel g i c1 c2).1 b := by
  have hsat := (dfs_complete fuel g i c1 c2 hfuel).2
  intro a b hab
  induction hab using Relation.ReflTransGen.head_induction_on with
  | refl => exact id
  | head hrel hrest ihh =>
    intro hva
    obtain ⟨⟨ni, hl, hcn⟩, hnva, hnvc⟩ := hrel
    have hkc := hN _ ni hl _ hcn
    exact ihh (hsat _ hnva hva ni hl _ hcn hkc)

theorem reachU_iff_reach_of_fresh {g : Graph} (hfresh : ∀ k, ¬Visited g k) (a b : ℚ) :
    ReachU g a b ↔ Reach g a b :=
  reflTransGen_congr fun x y =>
    ⟨fun h => h.1, fun h => ⟨h, hfresh x, hfresh y⟩⟩

theorem reachU_transfer {g g' : Graph} (hE : Evolves g g')
    (hclosed : ∀ u v, ReachU g u v → Visited g' u → Visited g' v) :
    ∀ a b, ReachU g a b → ¬Visited g' a → ¬Visited g' b → ReachU g' a b := by
  intro a b hab
  induction hab using Relation.ReflTransGen.head_induction_on with
  | refl => exact fun _ _ => Relation.ReflTransGen.refl
  | head hrel hrest ihh =>
    intro hnva' hnvb'
    obtain ⟨hedge, hnva, hnvc⟩ := hrel
    have hnvc' : ¬Visited g' _ := fun hvc' => hnvb' (hclosed _ b hrest hvc')
    exact Relation.ReflTransGen.head
      ⟨(evolves_edgeOf hE _ _).mpr hedge, hnva', hnvc'⟩ (ihh hnvc' hnvb')

theorem reach_symm {g : Graph} (hsym : ∀ a b, EdgeOf g a b → EdgeOf g b a)
    {a b : ℚ} (h : Reach g a b) : Reach g b a := by
  induction h with
  | refl => exact Relation.ReflTransGen.refl
  | tail hrest hedge ih => exact Relation.ReflTransGen.head (hsym _ _ hedge) ih

theorem spanOrigin_transfer {g g' : Graph} (hE : Evolves g g') {root v : ℚ}
    (h : SpanOrigin g' root v) : SpanOrigin g root v := by
  rcases h with h | ⟨k, hr, he⟩
  · exact Or.inl h
  · exact Or.inr ⟨k, (evolves_reach hE _ _).mp hr, (evolves_edgeOf hE _ _).mp he⟩

/-! ### What the component-extraction loop produces -/

theorem collect_master (fuel : Nat) :
    ∀ (keys : List ℚ) (g : Graph), NbrsClosed g → unvisitedCount g + 1 ≤ fuel →
    Evolves g (collectConnections fuel g keys).1 ∧
    (∀ k ∈ keys, IsKey g k → Visited (collectConnections fuel g keys).1 k) ∧
    ∃ data : List (ℚ × ℚ × ℚ),
      (collectConnections fuel g keys).2 = data.map Prod.snd ∧
      (∀ d ∈ data, IsKey g d.1 ∧ ¬Visited g d.1 ∧ d.1 ∈ keys ∧
        d.2.1 ≤ d.1 ∧ d.1 ≤ d.2.2 ∧ SpanOrigin g d.1 d.2.1 ∧ SpanOrigin g d.1 d.2.2) ∧
      data.Pairwise (fun d d' => ¬ReachU g d.1 d'.1) ∧
      (∀ k ∈ keys, IsKey g k → ¬Visited g k →
        ∃ d ∈ data, Reach g d.1 k ∧ d.2.1 ≤ k ∧ k ≤ d.2.2) := by
  intro keys
  induction keys with
  | nil =>
    intro g hN hfuel
    refine ⟨evolves_refl g, fun k hk => absurd hk (List.not_mem_nil k), [], rfl,
      fun d hd => absurd hd (List.not_mem_nil d), List.Pairwise.nil,
      fun k hk => absurd hk (List.not_mem_nil k)⟩
  | cons k rest ih =>
    intro g hN hfuel
    simp only [collectConnections]
    split
    · rename_i hl
      obtain ⟨hE, hvis, data, hmap, hprops, hpw, hcov⟩ := ih g hN hfuel
      refine ⟨hE, ?_, data, hmap, ?_, hpw, ?_⟩
      · intro m hm hkey
        rcases List.mem_cons.mp hm with hm | hm
        · subst hm
          obtain ⟨ni, hni⟩ := hkey
          rw [hl] at hni
          exact absurd hni (Option.noConfusion)
        · exact hvis m hm hkey
      · intro d hd
        obtain ⟨h1, h2, h3, h4⟩ := hprops d hd
        exact ⟨h1, h2, List.mem_cons_of_mem _ h3, h4⟩
      · intro m hm hkey hnv
        rcases List.mem_cons.mp hm with hm | hm
        · subst hm
          obtain ⟨ni, hni⟩ := hkey
          rw [hl] at hni
          exact absurd hni (Option.noConfusion)
        · exact hcov m hm hkey hnv
    · rename_i ni hl
      split
      · rename_i hvis
        obtain ⟨hE, hvisr, data, hmap, hprops, hpw, hcov⟩ := ih g hN hfuel
        refine ⟨hE, ?_, data, hmap, ?_, hpw, ?_⟩
        · intro m hm hkey
          rcases List.mem_cons.mp hm with hm | hm
          · subst hm
            exact hE.2.1 m ⟨ni, hl, hvis⟩
          · exact hvisr m hm hkey
        · intro d hd
          obtain ⟨h1, h2, h3, h4⟩ := hprops d hd
          exact ⟨h1, h2, List.mem_cons_of_mem _ h3, h4⟩
        · intro m hm hkey hnv
          rcases List.mem_cons.mp hm with hm | hm
          · subst hm
            exact absurd ⟨ni, hl, hvis⟩ hnv
          · exact hcov m hm hkey hnv
      · rename_i hnvis
        have hnvg : ¬Visited g k := visited_of_lookup_unvisited hl hnvis
        have hEr : Evolves g (dfs fuel g k k k).1 := dfs_evolves fuel g k k k
        have hN1 : NbrsClosed (dfs fuel g k k k).1 := evolves_nbrsClosed hEr hN
        have hfuel1 : unvisitedCount (dfs fuel g k k k).1 + 1 ≤ fuel :=
          le_trans (Nat.add_le_add_right hEr.2.2.2 1) hfuel
        have hvk : Visited (dfs fuel g k k k).1 k :=
          (dfs_complete fuel g k k k hfuel).1 ⟨ni, hl⟩
        have hbounds := dfs_bounds fuel g k k k (le_refl k) (le_refl k)
        obtain ⟨hE, hvisr, data, hmap, hprops, hpw, hcov⟩ :=
          ih (dfs fuel g k k k).1 hN1 hfuel1
        refine ⟨evolves_trans hEr hE, ?_, (k, (dfs fuel g k k k).2.1,
          (dfs fuel g k k k).2.2) :: data, by rw [hmap]; rfl, ?_, ?_, ?_⟩
        · intro m hm hkey
          rcases List.mem_cons.mp hm with hm | hm
          · subst hm
            exact hE.2.1 m hvk
          · exact hvisr m hm ((evolves_isKey hEr m).mpr hkey)
        · intro d hd
          rcases List.mem_cons.mp hd with hd | hd
          · subst hd
            refine ⟨⟨ni, hl⟩, hnvg, List.mem_cons_self _ _, hbounds.1, hbounds.2.1, ?_, ?_⟩
            · rcases (dfs_mem fuel g k k k).1 with hc | ⟨k', ni', hnv', hv', hl', hn'⟩
              · exact Or.inl hc
              · exact Or.inr ⟨k', dfs_sound fuel g k k k k' hnv' hv', ni', hl', hn'⟩
            · rcases (dfs_mem fuel g k k k).2 with hc | ⟨k', ni', hnv', hv', hl', hn'⟩
              · exact Or.inl hc
              · exact Or.inr ⟨k', dfs_sound fuel g k k k k' hnv' hv', ni', hl', hn'⟩
          · obtain ⟨h1, h2, h3, h4, h5, h6, h7⟩ := hprops d hd
            exact ⟨(evolves_isKey hEr d.1).mp h1, evolves_not_visited hEr h2,
              List.mem_cons_of_mem _ h3, h4, h5, spanOrigin_transfer hEr h6,
              spanOrigin_transfer hEr h7⟩
        · refine List.Pairwise.cons ?_ ?_
          · intro d hd hreach
            obtain ⟨-, h2, -, -⟩ := hprops d hd
            exact h2 (dfs_marks_reachU fuel g k k k hN hfuel k d.1 hreach hvk)
          · refine List.Pairwise.imp_of_mem ?_ hpw
            intro d d' hd hd' hnr hreach
            obtain ⟨-, hnv1, -, -⟩ := hprops d hd
            obtain ⟨-, hnv2, -, -⟩ := hprops d' hd'
            exact hnr (reachU_transfer hEr
              (dfs_marks_reachU fuel g k k k hN hfuel) d.1 d'.1 hreach hnv1 hnv2)
        · intro m hm hkey hnv
          rcases List.mem_cons.mp hm with hm | hm
          · subst hm
            exact ⟨(m, (dfs fuel g m m m).2.1, (dfs fuel g m m m).2.2),
              List.mem_cons_self _ _, Relation.ReflTransGen.refl,
              hbounds.1, hbounds.2.1⟩
          · by_cases hmid : Visited (dfs fuel g k k k).1 m
            · refine ⟨(k, (dfs fuel g k k k).2.1, (dfs fuel g k k k).2.2),
                List.mem_cons_self _ _, dfs_sound fuel g k k k m hnv hmid, ?_, ?_⟩
              · exact (hbounds.2.2 m hnv hmid).1
              · exact (hbounds.2.2 m hnv hmid).2
            · obtain ⟨d, hd, hr, hb1, hb2⟩ := hcov m hm
                ((evolves_isKey hEr m).mpr hkey) hmid
              exact ⟨d, List.mem_cons_of_mem _ hd,
                (evolves_reach hEr _ _).mp hr, hb1, hb2⟩

/-! ### Characterisation of the graph built by `buildGraph` -/

theorem lookupNode_addNbr (g : Graph) (k v q : ℚ) :
    lookupNode (addNbr g k v) q =
      if q = k then
        some (match lookupNode g k with
          | none => ⟨false, [v]⟩
          | some ni => ⟨ni.visited, if v ∈ ni.nbrs then ni.nbrs else ni.nbrs ++ [v]⟩)
      else lookupNode g q := by
  induction g with
  | nil =>
    by_cases h : q = k
    · simp [addNbr, lookupNode, h]
    · have h' : ¬k = q := fun hh => h hh.symm
      simp [addNbr, lookupNode, h, h']
  | cons a rest ih =>
    obtain ⟨ka, nia⟩ := a
    by_cases h1 : ka = k
    · subst h1
      by_cases h2 : ka = q
      · subst h2
        simp [addNbr, lookupNode]
      · have h2' : ¬q = ka := fun hh => h2 hh.symm
        simp [addNbr, lookupNode, h2, h2']
    · by_cases h2 : ka = q
      · subst h2
        have h2' : ¬ka = k := h1
        simp [addNbr, lookupNode, h1, h2']
      · simp [addNbr, lookupNode, h1, h2, ih]

theorem isKey_addNbr (g : Graph) (k v q : ℚ) :
    IsKey (addNbr g k v) q ↔ (q = k ∨ IsKey g q) := by
  unfold IsKey
  rw [lookupNode_addNbr]
  by_cases h : q = k
  · simp [h]
  · simp only [if_neg h]
    constructor
    · rintro ⟨ni, hl⟩
      exact Or.inr ⟨ni, hl⟩
    · rintro (hq | ⟨ni, hl⟩)
      · exact absurd hq h
      · exact ⟨ni, hl⟩

theorem not_visited_addNbr (g : Graph) (k v : ℚ)
    (h : ∀ q, ¬Visited g q) : ∀ q, ¬Visited (addNbr g k v) q := by
  intro q
  rintro ⟨ni, hl, hv⟩
  rw [lookupNode_addNbr] at hl
  by_cases hq : q = k
  · rw [if_pos hq] at hl
    cases hg : lookupNode g k with
    | none =>
      rw [hg] at hl
      have := Option.some.inj hl
      rw [← this] at hv
      simp at hv
    | some ni0 =>
      rw [hg] at hl
      have := Option.some.inj hl
      rw [← this] at hv
      simp at hv
      exact h k ⟨ni0, hg, hv⟩
  · rw [if_neg hq] at hl
    exact h q ⟨ni, hl, hv⟩

theorem edgeOf_addNbr (g : Graph) (k v q w : ℚ) :
    EdgeOf (addNbr g k v) q w ↔ ((q = k ∧ w = v) ∨ EdgeOf g q w) := by
  constructor
  · rintro ⟨ni, hl, hw⟩
    rw [lookupNode_addNbr] at hl
    by_cases hq : q = k
    · rw [if_pos hq] at hl
      have hni : ni = _ := (Option.some.inj hl).symm
      cases hg : lookupNode g k with
      | none =>
        rw [hg] at hni
        rw [hni] at hw
        simp at hw
        exact Or.inl ⟨hq, hw⟩
      | some ni0 =>
        rw [hg] at hni
        rw [hni] at hw
        simp only at hw
        by_cases hmem : v ∈ ni0.nbrs
        · rw [if_pos hmem] at hw
          exact Or.inr ⟨ni0, hq ▸ hg, hw⟩
        · rw [if_neg hmem] at hw
          rcases List.mem_append.mp hw with hw | hw
          · exact Or.inr ⟨ni0, hq ▸ hg, hw⟩
          · exact Or.inl ⟨hq, List.mem_singleton.mp hw⟩
    · rw [if_neg hq] at hl
      exact Or.inr ⟨ni, hl, hw⟩
  · rintro (⟨hq, hw⟩ | ⟨ni, hl, hw⟩)
    · subst hq
      subst hw
      refine ⟨_, by rw [lookupNode_addNbr, if_pos rfl], ?_⟩
      cases hg : lookupNode g q with
      | none =>
        exact List.mem_singleton_self w
      | some ni0 =>
        by_cases hmem : w ∈ ni0.nbrs
        · simp [hmem]
        · simp [hmem]
    · by_cases hq : q = k
      · subst hq
        refine ⟨_, by rw [lookupNode_addNbr, if_pos rfl], ?_⟩
        rw [hl]
        by_cases hmem : v ∈ ni.nbrs
        · simpa [hmem] using hw
        · simp [hmem, hw]
      · refine ⟨ni, ?_, hw⟩
        rw [lookupNode_addNbr, if_neg hq]
        exact hl

theorem graphInv_nil : GraphInv (fun _ => False) [] := by
  refine ⟨fun k => ?_, fun k => ?_, fun q w => ?_⟩
  · simp [IsKey, lookupNode]
  · rintro ⟨ni, hl, -⟩
    simp [lookupNode] at hl
  · simp [EdgeOf, lookupNode]

theorem graphInv_congr {P Q : ℚ × ℚ → Prop} (h : ∀ p, P p ↔ Q p) {g : Graph}
    (hInv : GraphInv P g) : GraphInv Q g := by
  refine ⟨fun k => ?_, hInv.2.1, fun q w => ?_⟩
  · rw [hInv.1 k]
    constructor
    · rintro ⟨p, hp, hk⟩; exact ⟨p, (h p).mp hp, hk⟩
    · rintro ⟨p, hp, hk⟩; exact ⟨p, (h p).mpr hp, hk⟩
  · rw [hInv.2.2 q w]
    constructor
    · rintro ⟨p, hp, hk⟩; exact ⟨p, (h p).mp hp, hk⟩
    · rintro ⟨p, hp, hk⟩; exact ⟨p, (h p).mpr hp, hk⟩

theorem graphInv_addPair {P : ℚ × ℚ → Prop} {g : Graph} (hInv : GraphInv P g)
    (p : ℚ × ℚ) :
    GraphInv (fun q => P q ∨ q = p) (addNbr (addNbr g p.1 p.2) p.2 p.1) := by
  refine ⟨fun k => ?_, ?_, fun q w => ?_⟩
  · rw [isKey_addNbr, isKey_addNbr, hInv.1 k]
    constructor
    · rintro (hk | hk | ⟨q, hq, hqk⟩)
      · exact ⟨p, Or.inr rfl, Or.inr hk.symm⟩
      · exact ⟨p, Or.inr rfl, Or.inl hk.symm⟩
      · exact ⟨q, Or.inl hq, hqk⟩
    · rintro ⟨q, hq | hq, hqk⟩
      · exact Or.inr (Or.inr ⟨q, hq, hqk⟩)
      · subst hq
        rcases hqk with hqk | hqk
        · exact Or.inr (Or.inl hqk.symm)
        · exact Or.inl hqk.symm
  · exact not_visited_addNbr _ _ _ (not_visited_addNbr _ _ _ hInv.2.1)
  · rw [edgeOf_addNbr, edgeOf_addNbr, hInv.2.2 q w]
    constructor
    · rintro (⟨hq, hw⟩ | ⟨hq, hw⟩ | ⟨r, hr, hrk⟩)
      · exact ⟨p, Or.inr rfl, Or.inr ⟨hq.symm, hw.symm⟩⟩
      · exact ⟨p, Or.inr rfl, Or.inl ⟨hq.symm, hw.symm⟩⟩
      · exact ⟨r, Or.inl hr, hrk⟩
    · rintro ⟨r, hr | hr, hrk⟩
      · exact Or.inr (Or.inr ⟨r, hr, hrk⟩)
      · subst hr
        rcases hrk with ⟨h1, h2⟩ | ⟨h1, h2⟩
        · exact Or.inr (Or.inl ⟨h1.symm, h2.symm⟩)
        · exact Or.inl ⟨h1.symm, h2.symm⟩

theorem graphInv_foldl : ∀ (l : List (ℚ × ℚ)) (g : Graph) (P : ℚ × ℚ → Prop),
    GraphInv P g →
    GraphInv (fun q => P q ∨ q ∈ l)
      (List.foldl (fun g p => addNbr (addNbr g p.1 p.2) p.2 p.1) g l) := by
  intro l
  induction l with
  | nil =>
    intro g P hInv
    exact graphInv_congr (fun p => by simp) hInv
  | cons p rest ih =>
    intro g P hInv
    have hstep := graphInv_addPair hInv p
    have hres := ih _ _ hstep
    refine graphInv_congr (fun q => ?_) hres
    simp only [List.mem_cons]
    tauto

theorem buildGraph_inv (l : List (ℚ × ℚ)) : GraphInv (fun q => q ∈ l) (buildGraph l) := by
  have h := graphInv_foldl l [] (fun _ => False) graphInv_nil
  exact graphInv_congr (fun p => by simp) h

theorem buildGraph_isKey (l : List (ℚ × ℚ)) (k : ℚ) :
    IsKey (buildGraph l) k ↔ IsEndpoint l k := by
  rw [(buildGraph_inv l).1 k]
  unfold IsEndpoint
  constructor
  · rintro ⟨p, hp, hk⟩; exact ⟨p, hp, hk⟩
  · rintro ⟨p, hp, hk⟩; exact ⟨p, hp, hk⟩

theorem buildGraph_fresh (l : List (ℚ × ℚ)) : ∀ k, ¬Visited (buildGraph l) k :=
  (buildGraph_inv l).2.1

theorem buildGraph_edge (l : List (ℚ × ℚ)) (q w : ℚ) :
    EdgeOf (buildGraph l) q w ↔
      ∃ p, p ∈ l ∧ ((p.1 = q ∧ p.2 = w) ∨ (p.2 = q ∧ p.1 = w)) :=
  (buildGraph_inv l).2.2 q w

theorem buildGraph_nbrsClosed (l : List (ℚ × ℚ)) : NbrsClosed (buildGraph l) := by
  intro k ni hl v hv
  have hedge : EdgeOf (buildGraph l) k v := ⟨ni, hl, hv⟩
  rw [buildGraph_edge] at hedge
  obtain ⟨p, hp, hpk⟩ := hedge
  rw [buildGraph_isKey]
  rcases hpk with ⟨-, h2⟩ | ⟨-, h2⟩
  · exact ⟨p, hp, Or.inr h2⟩
  · exact ⟨p, hp, Or.inl h2⟩

theorem buildGraph_edge_symm (l : List (ℚ × ℚ)) (a b : ℚ)
    (h : EdgeOf (buildGraph l) a b) : EdgeOf (buildGraph l) b a := by
  rw [buildGraph_edge] at h ⊢
  obtain ⟨p, hp, hpk⟩ := h
  rcases hpk with ⟨h1, h2⟩ | ⟨h1, h2⟩
  · exact ⟨p, hp, Or.inr ⟨h2, h1⟩⟩
  · exact ⟨p, hp, Or.inl ⟨h2, h1⟩⟩

theorem unvisitedCount_le_length (g : Graph) : unvisitedCount g ≤ g.length := by
  induction g with
  | nil => exact le_refl _
  | cons a rest ih =>
    obtain ⟨ka, nia⟩ := a
    by_cases h : nia.visited <;> simp [unvisitedCount, h, List.length_cons] <;> omega

/-! ### From interval chains to graph reachability -/

theorem reach_within (l : List (ℚ × ℚ)) {p : ℚ × ℚ} (hp : p ∈ l) {a b : ℚ}
    (ha : p.1 = a ∨ p.2 = a) (hb : p.1 = b ∨ p.2 = b) :
    Reach (buildGraph l) a b := by
  rcases ha with ha | ha <;> rcases hb with hb | hb
  · rw [← ha, ← hb]
    exact Relation.ReflTransGen.refl
  · exact Relation.ReflTransGen.single
      ((buildGraph_edge l a b).mpr ⟨p, hp, Or.inl ⟨ha, hb⟩⟩)
  · exact Relation.ReflTransGen.single
      ((buildGraph_edge l a b).mpr ⟨p, hp, Or.inr ⟨ha, hb⟩⟩)
  · rw [← ha, ← hb]
    exact Relation.ReflTransGen.refl

theorem reach_of_chain (l : List (ℚ × ℚ)) {p q : ℚ × ℚ}
    (h : Relation.ReflTransGen (fun a b => a ∈ l ∧ b ∈ l ∧ Linked a b) p q)
    {a : ℚ} (hp : p ∈ l) (ha : p.1 = a ∨ p.2 = a) :
    ∀ b, (q.1 = b ∨ q.2 = b) → Reach (buildGraph l) a b := by
  induction h with
  | refl => exact fun b hb => reach_within l hp ha hb
  | tail hrest hstep ih =>
    intro b hb
    obtain ⟨hq1, hq2, hlink⟩ := hstep
    rcases hlink with hs | hs | hs | hs
    · exact Relation.ReflTransGen.trans (ih _ (Or.inl rfl))
        (reach_within l hq2 (Or.inl hs.symm) hb)
    · exact Relation.ReflTransGen.trans (ih _ (Or.inl rfl))
        (reach_within l hq2 (Or.inr hs.symm) hb)
    · exact Relation.ReflTransGen.trans (ih _ (Or.inr rfl))
        (reach_within l hq2 (Or.inl hs.symm) hb)
    · exact Relation.ReflTransGen.trans (ih _ (Or.inr rfl))
        (reach_within l hq2 (Or.inr hs.symm) hb)

/-! ### Evaluation lemmas for the component loop and the merge loop -/

theorem collect_all_visited (fuel : Nat) :
    ∀ (keys : List ℚ) (g : Graph), (∀ k ∈ keys, Visited g k) →
      collectConnections fuel g keys = (g, []) := by
  intro keys
  induction keys with
  | nil => intro g _; rfl
  | cons k rest ih =>
    intro g h
    obtain ⟨ni, hl, hv⟩ := h k (List.mem_cons_self _ _)
    simp only [collectConnections, hl]
    rw [if_pos hv]
    exact ih g (fun m hm => h m (List.mem_cons_of_mem _ hm))

theorem mergeLoop_self (p q : ℚ) : mergeLoop (p, q) [(p, q)] = (true, (p, q)) := by
  simp only [mergeLoop]
  rw [if_neg (by simp), if_neg (by simp), if_pos ⟨le_refl p, le_refl q⟩]

/-! ### The continuity check on a single endpoint-linked component -/

theorem check_single_component (l : List (ℚ × ℚ)) (hne : ¬l = []) (hch : Chained l) :
    ∃ m M, IsEndpoint l m ∧ IsEndpoint l M ∧
      (∀ v, IsEndpoint l v → m ≤ v ∧ v ≤ M) ∧
      check_loop_continuity l = some (true, (m, M)) := by
  have hfuel : unvisitedCount (buildGraph l) + 1 ≤ (buildGraph l).length + 1 :=
    Nat.add_le_add_right (unvisitedCount_le_length _) 1
  have hN := buildGraph_nbrsClosed l
  have hfresh := buildGraph_fresh l
  have hconn : ∀ a b, IsKey (buildGraph l) a → IsKey (buildGraph l) b →
      Reach (buildGraph l) a b := by
    intro a b ha hb
    rw [buildGraph_isKey] at ha hb
    obtain ⟨p, hp, hpa⟩ := ha
    obtain ⟨q, hq, hqb⟩ := hb
    exact reach_of_chain l (hch p hp q hq) hp hpa b hqb
  obtain ⟨p0, hp0⟩ := List.exists_mem_of_ne_nil l hne
  have hkey0 : IsKey (buildGraph l) p0.1 :=
    (buildGraph_isKey l p0.1).mpr ⟨p0, hp0, Or.inl rfl⟩
  cases hk : keysOf (buildGraph l) with
  | nil =>
    have := (isKey_iff_mem_keysOf _ p0.1).mp hkey0
    rw [hk] at this
    exact absurd this (List.not_mem_nil _)
  | cons k0 krest =>
    have hkey0' : IsKey (buildGraph l) k0 := by
      rw [isKey_iff_mem_keysOf, hk]
      exact List.mem_cons_self _ _
    obtain ⟨ni0, hl0⟩ := hkey0'
    have hv0 : ni0.visited = false := by
      cases hv : ni0.visited
      · rfl
      · exact absurd ⟨ni0, hl0, hv⟩ (hfresh k0)
    have hvk0 : Visited (dfs ((buildGraph l).length + 1) (buildGraph l) k0 k0 k0).1 k0 :=
      (dfs_complete _ _ k0 k0 k0 hfuel).1 ⟨ni0, hl0⟩
    have hmarkall : ∀ k, IsKey (buildGraph l) k →
        Visited (dfs ((buildGraph l).length + 1) (buildGraph l) k0 k0 k0).1 k := by
      intro k hkk
      have hreach : Reach (buildGraph l) k0 k := hconn k0 k ⟨ni0, hl0⟩ hkk
      have hreachU : ReachU (buildGraph l) k0 k :=
        (reachU_iff_reach_of_fresh hfresh k0 k).mpr hreach
      exact dfs_marks_reachU _ _ k0 k0 k0 hN hfuel k0 k hreachU hvk0
    have hrestvis : ∀ k ∈ krest,
        Visited (dfs ((buildGraph l).length + 1) (buildGraph l) k0 k0 k0).1 k := by
      intro k hkk
      refine hmarkall k ?_
      rw [isKey_iff_mem_keysOf, hk]
      exact List.mem_cons_of_mem _ hkk
    have hb := dfs_bounds ((buildGraph l).length + 1) (buildGraph l) k0 k0 k0
      (le_refl k0) (le_refl k0)
    have hm := dfs_mem ((buildGraph l).length + 1) (buildGraph l) k0 k0 k0
    have hconns : (collectConnections ((buildGraph l).length + 1) (buildGraph l)
        (keysOf (buildGraph l))).2 =
        [((dfs ((buildGraph l).length + 1) (buildGraph l) k0 k0 k0).2.1,
          (dfs ((buildGraph l).length + 1) (buildGraph l) k0 k0 k0).2.2)] := by
      rw [hk]
      simp only [collectConnections, hl0]
      rw [if_neg (by rw [hv0]; simp),
        collect_all_visited _ krest _ hrestvis]
    refine ⟨(dfs ((buildGraph l).length + 1) (buildGraph l) k0 k0 k0).2.1,
      (dfs ((buildGraph l).length + 1) (buildGraph l) k0 k0 k0).2.2, ?_, ?_, ?_, ?_⟩
    · rcases hm.1 with hc | ⟨k', ni', hnv', hv', hl', hn'⟩
      · rw [hc, ← buildGraph_isKey]
        exact ⟨ni0, hl0⟩
      · have hedge : EdgeOf (buildGraph l) k' _ := ⟨ni', hl', hn'⟩
        rw [buildGraph_edge] at hedge
        obtain ⟨p, hp, hpk⟩ := hedge
        rcases hpk with ⟨-, h2⟩ | ⟨-, h2⟩
        · exact ⟨p, hp, Or.inr h2⟩
        · exact ⟨p, hp, Or.inl h2⟩
    · rcases hm.2 with hc | ⟨k', ni', hnv', hv', hl', hn'⟩
      · rw [hc, ← buildGraph_isKey]
        exact ⟨ni0, hl0⟩
      · have hedge : EdgeOf (buildGraph l) k' _ := ⟨ni', hl', hn'⟩
        rw [buildGraph_edge] at hedge
        obtain ⟨p, hp, hpk⟩ := hedge
        rcases hpk with ⟨-, h2⟩ | ⟨-, h2⟩
        · exact ⟨p, hp, Or.inr h2⟩
        · exact ⟨p, hp, Or.inl h2⟩
    · intro v hv
      have hkv : IsKey (buildGraph l) v := (buildGraph_isKey l v).mpr hv
      exact hb.2.2 v (hfresh v) (hmarkall v hkv)
    · have hconns' : (collectConnections ((buildGraph l).length + 1) (buildGraph l)
          ((buildGraph l).map Prod.fst)).2 =
          [((dfs ((buildGraph l).length + 1) (buildGraph l) k0 k0 k0).2.1,
            (dfs ((buildGraph l).length + 1) (buildGraph l) k0 k0 k0).2.2)] := hconns
      simp only [check_loop_continuity]
      rw [hconns']
      exact congrArg some (mergeLoop_self _ _)

theorem isEndpoint_perm {l l' : List (ℚ × ℚ)} (h : l.Perm l') (v : ℚ) :
    IsEndpoint l v ↔ IsEndpoint l' v := by
  unfold IsEndpoint
  constructor <;> rintro ⟨p, hp, hpe⟩
  · exact ⟨p, h.mem_iff.mp hp, hpe⟩
  · exact ⟨p, h.mem_iff.mpr hp, hpe⟩

theorem chained_perm {l l' : List (ℚ × ℚ)} (h : l.Perm l') (hch : Chained l) :
    Chained l' := by
  intro p hp q hq
  exact Relation.ReflTransGen.mono
    (fun a b hab => ⟨h.mem_iff.mp hab.1, h.mem_iff.mp hab.2.1, hab.2.2⟩)
    (hch p (h.mem_iff.mpr hp) q (h.mem_iff.mpr hq))

/-! ### Claim C6: endpoint-chained sets -/

/-- Claim C6: for every non-empty interval set that is pairwise
endpoint-chained into one gap-free span, `_check_loop_continuity` returns
`true` together with the true union bounds — the least and greatest endpoint
values — and it does so for every ordering of the input; in particular
`[0,2]` and `[2,5]` give `(true, (0, 5))` (checked in the witness). -/
theorem C6_endpoint_chained (l : List (ℚ × ℚ)) (hne : ¬l = [])
    (_hproper : ∀ p ∈ l, p.1 ≤ p.2) (hch : Chained l) :
    ∃ m M, IsEndpoint l m ∧ IsEndpoint l M ∧
      (∀ v, IsEndpoint l v → m ≤ v ∧ v ≤ M) ∧
      ∀ l', l.Perm l' → check_loop_continuity l' = some (true, (m, M)) := by
  obtain ⟨m, M, hm, hM, hbnd, hchk⟩ := check_single_component l hne hch
  refine ⟨m, M, hm, hM, hbnd, ?_⟩
  intro l' hperm
  have hne' : ¬l' = [] := by
    intro h
    rw [h] at hperm
    exact hne hperm.eq_nil
  obtain ⟨m', M', hm', hM', hbnd', hchk'⟩ :=
    check_single_component l' hne' (chained_perm hperm hch)
  have hmm : m = m' := le_antisymm
    (hbnd m' ((isEndpoint_perm hperm m').mpr hm')).1
    (hbnd' m ((isEndpoint_perm hperm m).mp hm)).1
  have hMM : M = M' := le_antisymm
    (hbnd' M ((isEndpoint_perm hperm M).mp hM)).2
    (hbnd M' ((isEndpoint_perm hperm M').mpr hM')).2
  rw [hchk', ← hmm, ← hMM]

/-- Claim C6 witness: the spec's own example, regions `[0,2]` and `[2,5]`. -/
theorem C6_witness :
    check_loop_continuity [((0 : ℚ), (2 : ℚ)), (2, 5)] = some (true, (0, 5)) ∧
    ∃ m M, IsEndpoint [((0 : ℚ), (2 : ℚ)), (2, 5)] m ∧
      IsEndpoint [((0 : ℚ), (2 : ℚ)), (2, 5)] M ∧
      (∀ v, IsEndpoint [((0 : ℚ), (2 : ℚ)), (2, 5)] v → m ≤ v ∧ v ≤ M) ∧
      ∀ l', List.Perm [((0 : ℚ), (2 : ℚ)), (2, 5)] l' →
        check_loop_continuity l' = some (true, (m, M)) := by
  have hch : Chained [((0 : ℚ), (2 : ℚ)), (2, 5)] := by
    intro p hp q hq
    simp only [List.mem_cons, List.not_mem_nil, or_false] at hp hq
    rcases hp with rfl | rfl <;> rcases hq with rfl | rfl
    · exact Relation.ReflTransGen.refl
    · exact Relation.ReflTransGen.single
        ⟨by simp, by simp, Or.inr (Or.inr (Or.inl rfl))⟩
    · exact Relation.ReflTransGen.single
        ⟨by simp, by simp, Or.inr (Or.inl rfl)⟩
    · exact Relation.ReflTransGen.refl
  exact ⟨by decide, C6_endpoint_chained _ (by decide) (by decide) hch⟩

/-! ### The merge loop on spans separated by a gap point -/

theorem mergeLoop_split (x : ℚ) : ∀ (spans : List (ℚ × ℚ)) (conn : ℚ × ℚ),
    (∀ sp ∈ spans, (sp.1 < x ∧ sp.2 < x) ∨ (x < sp.1 ∧ x < sp.2)) →
    ((conn.1 < x ∧ conn.2 < x) ∨ (x < conn.1 ∧ x < conn.2)) →
    (∃ sp ∈ spans, (conn.1 < x ∧ x < sp.1) ∨ (x < conn.1 ∧ sp.1 < x)) →
    mergeLoop conn spans = (false, (0, 0)) := by
  intro spans
  induction spans with
  | nil =>
    rintro conn - - ⟨sp, hsp, -⟩
    exact absurd hsp (List.not_mem_nil sp)
  | cons hd rest ih =>
    rintro ⟨p, q⟩ hall hconn ⟨sp, hsp, hw⟩
    obtain ⟨a, b⟩ := hd
    have hhd := hall (a, b) (List.mem_cons_self _ _)
    have hrest : ∀ sp ∈ rest, (sp.1 < x ∧ sp.2 < x) ∨ (x < sp.1 ∧ x < sp.2) :=
      fun sp hsp => hall sp (List.mem_cons_of_mem _ hsp)
    simp only [mergeLoop]
    split_ifs with h1 h2 h3 h4
    · -- case 1: extend right, connector becomes (p, b)
      rcases hconn with ⟨hp, hq⟩ | ⟨hp, hq⟩ <;> rcases hhd with ⟨ha, hb⟩ | ⟨ha, hb⟩
      · refine ih (p, b) hrest (Or.inl ⟨hp, hb⟩) ?_
        rcases hw with ⟨h5, h6⟩ | ⟨h5, h6⟩
        · rcases List.mem_cons.mp hsp with rfl | hsp2
          · exact absurd h6 (by push_neg; exact le_of_lt ha)
          · exact ⟨sp, hsp2, Or.inl ⟨hp, h6⟩⟩
        · exact absurd h5 (by push_neg; exact le_of_lt hp)
      · exact absurd h1.2.1 (by push_neg; linarith)
      · exact absurd h1.1 (by push_neg; linarith)
      · refine ih (p, b) hrest (Or.inr ⟨hp, hb⟩) ?_
        rcases hw with ⟨h5, h6⟩ | ⟨h5, h6⟩
        · exact absurd h5 (by push_neg; exact le_of_lt hp)
        · rcases List.mem_cons.mp hsp with rfl | hsp2
          · exact absurd h6 (by push_neg; exact le_of_lt ha)
          · exact ⟨sp, hsp2, Or.inr ⟨hp, h6⟩⟩
    · -- case 2: extend left, connector becomes (a, q)
      rcases hconn with ⟨hp, hq⟩ | ⟨hp, hq⟩ <;> rcases hhd with ⟨ha, hb⟩ | ⟨ha, hb⟩
      · refine ih (a, q) hrest (Or.inl ⟨ha, hq⟩) ?_
        rcases hw with ⟨h5, h6⟩ | ⟨h5, h6⟩
        · rcases List.mem_cons.mp hsp with rfl | hsp2
          · exact absurd h6 (by push_neg; exact le_of_lt ha)
          · exact ⟨sp, hsp2, Or.inl ⟨ha, h6⟩⟩
        · exact absurd h5 (by push_neg; exact le_of_lt hp)
      · exact absurd h2.1 (by push_neg; linarith)
      · exact absurd h2.2.1 (by push_neg; linarith)
      · refine ih (a, q) hrest (Or.inr ⟨ha, hq⟩) ?_
        rcases hw with ⟨h5, h6⟩ | ⟨h5, h6⟩
        · exact absurd h5 (by push_neg; exact le_of_lt hp)
        · rcases List.mem_cons.mp hsp with rfl | hsp2
          · exact absurd h6 (by push_neg; exact le_of_lt ha)
          · exact ⟨sp, hsp2, Or.inr ⟨ha, h6⟩⟩
    · -- case 3: nested in the connector, connector unchanged
      rcases hconn with ⟨hp, hq⟩ | ⟨hp, hq⟩ <;> rcases hhd with ⟨ha, hb⟩ | ⟨ha, hb⟩
      · refine ih (p, q) hrest (Or.inl ⟨hp, hq⟩) ?_
        rcases hw with ⟨h5, h6⟩ | ⟨h5, h6⟩
        · rcases List.mem_cons.mp hsp with rfl | hsp2
          · exact absurd h6 (by push_neg; exact le_of_lt ha)
          · exact ⟨sp, hsp2, Or.inl ⟨h5, h6⟩⟩
        · exact absurd h5 (by push_neg; exact le_of_lt hp)
      · exact absurd h3.2 (by push_neg; linarith)
      · exact absurd h3.1 (by push_neg; linarith)
      · refine ih (p, q) hrest (Or.inr ⟨hp, hq⟩) ?_
        rcases hw with ⟨h5, h6⟩ | ⟨h5, h6⟩
        · exact absurd h5 (by push_neg; exact le_of_lt hp)
        · rcases List.mem_cons.mp hsp with rfl | hsp2
          · exact absurd h6 (by push_neg; exact le_of_lt ha)
          · exact ⟨sp, hsp2, Or.inr ⟨h5, h6⟩⟩
    · -- case 4: connector nested in the component, connector becomes (a, b)
      rcases hconn with ⟨hp, hq⟩ | ⟨hp, hq⟩ <;> rcases hhd with ⟨ha, hb⟩ | ⟨ha, hb⟩
      · refine ih (a, b) hrest (Or.inl ⟨ha, hb⟩) ?_
        rcases hw with ⟨h5, h6⟩ | ⟨h5, h6⟩
        · rcases List.mem_cons.mp hsp with rfl | hsp2
          · exact absurd h6 (by push_neg; exact le_of_lt ha)
          · exact ⟨sp, hsp2, Or.inl ⟨ha, h6⟩⟩
        · exact absurd h5 (by push_neg; exact le_of_lt hp)
      · exact absurd h4.1 (by push_neg; linarith)
      · exact absurd h4.2 (by push_neg; linarith)
      · refine ih (a, b) hrest (Or.inr ⟨ha, hb⟩) ?_
        rcases hw with ⟨h5, h6⟩ | ⟨h5, h6⟩
        · exact absurd h5 (by push_neg; exact le_of_lt hp)
        · rcases List.mem_cons.mp hsp with rfl | hsp2
          · exact absurd h6 (by push_neg; exact le_of_lt ha)
          · exact ⟨sp, hsp2, Or.inr ⟨ha, h6⟩⟩
    · rfl

theorem reach_side {g : Graph} {x : ℚ}
    (hedge : ∀ a b, EdgeOf g a b → ((a < x ∧ b < x) ∨ (x < a ∧ x < b)))
    {a b : ℚ} (h : Reach g a b) : (a < x → b < x) ∧ (x < a → x < b) := by
  induction h with
  | refl => exact ⟨id, id⟩
  | tail hrest he ih =>
    rcases hedge _ _ he with ⟨hc, hb⟩ | ⟨hc, hb⟩
    · exact ⟨fun _ => hb, fun hx => absurd hc (by push_neg; exact le_of_lt (ih.2 hx))⟩
    · exact ⟨fun hax => absurd (ih.1 hax) (by push_neg; exact le_of_lt hc), fun _ => hb⟩

/-! ### Claim C5: interval sets separated by a strictly positive gap -/

/-- Claim C5: whenever some point `x` lies strictly inside no interval and
there are intervals entirely on both sides of it — i.e. the union splits
into at least two maximal components separated by a strictly positive
gap — the continuity check returns `false` with the span `(0, 0)`. -/
theorem C5_gap_fails (l : List (ℚ × ℚ)) (x : ℚ)
    (hproper : ∀ p ∈ l, p.1 ≤ p.2)
    (hside : ∀ p ∈ l, p.2 < x ∨ x < p.1)
    (hleft : ∃ p ∈ l, p.2 < x) (hright : ∃ p ∈ l, x < p.1) :
    check_loop_continuity l = some (false, (0, 0)) := by
  have hfuel : unvisitedCount (buildGraph l) + 1 ≤ (buildGraph l).length + 1 :=
    Nat.add_le_add_right (unvisitedCount_le_length _) 1
  have hN := buildGraph_nbrsClosed l
  have hfresh := buildGraph_fresh l
  have hep_side : ∀ v, IsEndpoint l v → (v < x ∨ x < v) := by
    rintro v ⟨p, hp, hpe⟩
    rcases hside p hp with h | h
    · left
      rcases hpe with rfl | rfl
      · exact lt_of_le_of_lt (hproper p hp) h
      · exact h
    · right
      rcases hpe with rfl | rfl
      · exact h
      · exact lt_of_lt_of_le h (hproper p hp)
  have hedge_side : ∀ a b, EdgeOf (buildGraph l) a b →
      ((a < x ∧ b < x) ∨ (x < a ∧ x < b)) := by
    intro a b he
    rw [buildGraph_edge] at he
    obtain ⟨p, hp, hpk⟩ := he
    rcases hside p hp with h | h
    · left
      rcases hpk with ⟨rfl, rfl⟩ | ⟨rfl, rfl⟩
      · exact ⟨lt_of_le_of_lt (hproper p hp) h, h⟩
      · exact ⟨h, lt_of_le_of_lt (hproper p hp) h⟩
    · right
      rcases hpk with ⟨rfl, rfl⟩ | ⟨rfl, rfl⟩
      · exact ⟨h, lt_of_lt_of_le h (hproper p hp)⟩
      · exact ⟨lt_of_lt_of_le h (hproper p hp), h⟩
  obtain ⟨hE, hvisall, data, hmap, hprops, hpw, hcov⟩ :=
    collect_master ((buildGraph l).length + 1) (keysOf (buildGraph l)) (buildGraph l) hN hfuel
  have hpure : ∀ d ∈ data,
      (d.1 < x ∧ d.2.1 < x ∧ d.2.2 < x) ∨ (x < d.1 ∧ x < d.2.1 ∧ x < d.2.2) := by
    intro d hd
    obtain ⟨hk, hnv, hmem, hb1, hb2, ho1, ho2⟩ := hprops d hd
    have hroot : d.1 < x ∨ x < d.1 := hep_side d.1 ((buildGraph_isKey l d.1).mp hk)
    have hov : ∀ v, SpanOrigin (buildGraph l) d.1 v →
        ((d.1 < x → v < x) ∧ (x < d.1 → x < v)) := by
      rintro v (rfl | ⟨k, hr, he⟩)
      · exact ⟨id, id⟩
      · have hrk := reach_side hedge_side hr
        rcases hedge_side k v he with ⟨h1, h2⟩ | ⟨h1, h2⟩
        · exact ⟨fun _ => h2, fun hx => absurd h1 (by push_neg; exact le_of_lt (hrk.2 hx))⟩
        · exact ⟨fun hx => absurd (hrk.1 hx) (by push_neg; exact le_of_lt h1), fun _ => h2⟩
    rcases hroot with h | h
    · exact Or.inl ⟨h, (hov _ ho1).1 h, (hov _ ho2).1 h⟩
    · exact Or.inr ⟨h, (hov _ ho1).2 h, (hov _ ho2).2 h⟩
  obtain ⟨pL, hpL, hL⟩ := hleft
  obtain ⟨pR, hpR, hR⟩ := hright
  have hkL : IsKey (buildGraph l) pL.1 := (buildGraph_isKey l pL.1).mpr ⟨pL, hpL, Or.inl rfl⟩
  have hkR : IsKey (buildGraph l) pR.1 := (buildGraph_isKey l pR.1).mpr ⟨pR, hpR, Or.inl rfl⟩
  have hvL : pL.1 < x := lt_of_le_of_lt (hproper pL hpL) hL
  obtain ⟨dL, hdL, hrL, hbL1, hbL2⟩ :=
    hcov pL.1 ((isKey_iff_mem_keysOf _ _).mp hkL) hkL (hfresh _)
  obtain ⟨dR, hdR, hrR, hbR1, hbR2⟩ :=
    hcov pR.1 ((isKey_iff_mem_keysOf _ _).mp hkR) hkR (hfresh _)
  have hLside : dL.2.1 < x ∧ dL.2.2 < x := by
    rcases hpure dL hdL with ⟨h1, h2, h3⟩ | ⟨h1, h2, h3⟩
    · exact ⟨h2, h3⟩
    · exact absurd ((reach_side hedge_side hrL).2 h1) (by push_neg; exact le_of_lt hvL)
  have hRside : x < dR.2.1 ∧ x < dR.2.2 := by
    rcases hpure dR hdR with ⟨h1, h2, h3⟩ | ⟨h1, h2, h3⟩
    · exact absurd ((reach_side hedge_side hrR).1 h1) (by push_neg; exact le_of_lt hR)
    · exact ⟨h2, h3⟩
  have hconnpure : ∀ sp ∈ (collectConnections ((buildGraph l).length + 1) (buildGraph l)
      (keysOf (buildGraph l))).2, (sp.1 < x ∧ sp.2 < x) ∨ (x < sp.1 ∧ x < sp.2) := by
    intro sp hsp
    rw [hmap] at hsp
    obtain ⟨d, hd, rfl⟩ := List.mem_map.mp hsp
    rcases hpure d hd with ⟨-, h2, h3⟩ | ⟨-, h2, h3⟩
    · exact Or.inl ⟨h2, h3⟩
    · exact Or.inr ⟨h2, h3⟩
  cases hconns : (collectConnections ((buildGraph l).length + 1) (buildGraph l)
      (keysOf (buildGraph l))).2 with
  | nil =>
    rw [hmap] at hconns
    have hmm : dL.2 ∈ data.map Prod.snd := List.mem_map_of_mem _ hdL
    rw [hconns] at hmm
    exact absurd hmm (List.not_mem_nil _)
  | cons c crest =>
    have hcpure := hconnpure c (by rw [hconns]; exact List.mem_cons_self _ _)
    have hLmem : dL.2 ∈ c :: crest := by
      rw [← hconns, hmap]
      exact List.mem_map_of_mem _ hdL
    have hRmem : dR.2 ∈ c :: crest := by
      rw [← hconns, hmap]
      exact List.mem_map_of_mem _ hdR
    have hall : ∀ sp ∈ c :: crest, (sp.1 < x ∧ sp.2 < x) ∨ (x < sp.1 ∧ x < sp.2) := by
      intro sp hsp
      exact hconnpure sp (by rw [hconns]; exact hsp)
    have hwit : ∃ sp ∈ c :: crest, (c.1 < x ∧ x < sp.1) ∨ (x < c.1 ∧ sp.1 < x) := by
      rcases hcpure with ⟨h1, -⟩ | ⟨h1, -⟩
      · exact ⟨dR.2, hRmem, Or.inl ⟨h1, hRside.1⟩⟩
      · exact ⟨dL.2, hLmem, Or.inr ⟨h1, hLside.1⟩⟩
    have hmerge := mergeLoop_split x (c :: crest) c hall hcpure hwit
    have hconns' : (collectConnections ((buildGraph l).length + 1) (buildGraph l)
        ((buildGraph l).map Prod.fst)).2 = c :: crest := hconns
    simp only [check_loop_continuity]
    rw [hconns']
    exact congrArg some hmerge

/-- Claim C5 witness: `[0,2]` and `[4,6]`, separated by the gap point `3`. -/
theorem C5_witness :
    (∀ p ∈ [((0 : ℚ), (2 : ℚ)), (4, 6)], p.1 ≤ p.2) ∧
    (∀ p ∈ [((0 : ℚ), (2 : ℚ)), (4, 6)], p.2 < 3 ∨ 3 < p.1) ∧
    check_loop_continuity [((0 : ℚ), (2 : ℚ)), (4, 6)] = some (false, (0, 0)) :=
  ⟨by decide, by decide,
    C5_gap_fails [((0 : ℚ), (2 : ℚ)), (4, 6)] 3 (by decide) (by decide)
      (by decide) (by decide)⟩

/-! ### The merge loop on two strictly overlapping spans -/

theorem reachU_symm {g : Graph} (hsym : ∀ a b, EdgeOf g a b → EdgeOf g b a)
    {a b : ℚ} (h : ReachU g a b) : ReachU g b a := by
  induction h with
  | refl => exact Relation.ReflTransGen.refl
  | tail hrest hedge ih =>
    exact Relation.ReflTransGen.head ⟨hsym _ _ hedge.1, hedge.2.2, hedge.2.1⟩ ih

theorem mergeLoop_self_cons (p q : ℚ) (rest : List (ℚ × ℚ)) :
    mergeLoop (p, q) ((p, q) :: rest) = mergeLoop (p, q) rest := by
  simp only [mergeLoop]
  rw [if_neg (by simp), if_neg (by simp), if_pos ⟨le_refl p, le_refl q⟩]

theorem mergeLoop_overlap_step (p q a b : ℚ) (rest : List (ℚ × ℚ))
    (hpa : ¬p = a) (hqb : ¬q = b) (h1 : a < q) (h2 : p < b) :
    mergeLoop (p, q) ((a, b) :: rest) = mergeLoop (min p a, max q b) rest := by
  rcases lt_or_gt_of_ne hpa with hpa' | hpa' <;> rcases lt_or_gt_of_ne hqb with hqb' | hqb'
  · simp only [mergeLoop]
    rw [if_pos ⟨hpa', h1, hqb'⟩, min_eq_left (le_of_lt hpa'), max_eq_right (le_of_lt hqb')]
  · simp only [mergeLoop]
    rw [if_neg (by rintro ⟨-, -, hc⟩; linarith), if_neg (by rintro ⟨hc, -, -⟩; linarith),
      if_pos ⟨le_of_lt hpa', le_of_lt hqb'⟩,
      min_eq_left (le_of_lt hpa'), max_eq_left (le_of_lt hqb')]
  · simp only [mergeLoop]
    rw [if_neg (by rintro ⟨hc, -, -⟩; linarith), if_neg (by rintro ⟨-, -, hc⟩; linarith),
      if_neg (by rintro ⟨hc, -⟩; linarith), if_pos ⟨hpa', hqb'⟩,
      min_eq_right (le_of_lt hpa'), max_eq_right (le_of_lt hqb')]
  · simp only [mergeLoop]
    rw [if_neg (by rintro ⟨hc, -, -⟩; linarith), if_pos ⟨hpa', h2, hqb'⟩,
      min_eq_right (le_of_lt hpa'), max_eq_left (le_of_lt hqb')]

theorem mergeLoop_absorb : ∀ (spans : List (ℚ × ℚ)) (p q : ℚ),
    (∀ sp ∈ spans, p ≤ sp.1 ∧ sp.2 ≤ q) → mergeLoop (p, q) spans = (true, (p, q)) := by
  intro spans
  induction spans with
  | nil => intro p q _; rfl
  | cons hd rest ih =>
    obtain ⟨a, b⟩ := hd
    intro p q h
    obtain ⟨ha, hb⟩ := h (a, b) (List.mem_cons_self _ _)
    simp only [mergeLoop]
    rw [if_neg (by rintro ⟨-, -, hc⟩; linarith), if_neg (by rintro ⟨hc, -, -⟩; linarith),
      if_pos ⟨ha, hb⟩]
    exact ih p q fun sp hsp => h sp (List.mem_cons_of_mem _ hsp)

theorem mergeLoop_two : ∀ (spans : List (ℚ × ℚ)) (pA qA pB qB : ℚ),
    ¬pA = pB → ¬qA = qB → pB < qA → pA < qB →
    (∀ sp ∈ spans, sp = (pA, qA) ∨ sp = (pB, qB)) →
    (pB, qB) ∈ spans →
    mergeLoop (pA, qA) spans = (true, (min pA pB, max qA qB)) := by
  intro spans
  induction spans with
  | nil =>
    intro pA qA pB qB _ _ _ _ _ hB
    exact absurd hB (List.not_mem_nil _)
  | cons hd rest ih =>
    intro pA qA pB qB hne1 hne2 ho1 ho2 hall hB
    rcases hall hd (List.mem_cons_self _ _) with rfl | rfl
    · rw [mergeLoop_self_cons]
      refine ih pA qA pB qB hne1 hne2 ho1 ho2
        (fun sp hsp => hall sp (List.mem_cons_of_mem _ hsp)) ?_
      rcases List.mem_cons.mp hB with h | h
      · exact absurd (congrArg Prod.fst h).symm hne1
      · exact h
    · rw [mergeLoop_overlap_step pA qA pB qB rest hne1 hne2 ho1 ho2]
      refine mergeLoop_absorb rest _ _ fun sp hsp => ?_
      rcases hall sp (List.mem_cons_of_mem _ hsp) with rfl | rfl
      · exact ⟨min_le_left _ _, le_max_left _ _⟩
      · exact ⟨min_le_right _ _, le_max_right _ _⟩

theorem noGap_perm {l l' : List (ℚ × ℚ)} (h : l.Perm l') (hg : NoGap l) : NoGap l' := by
  intro x hx
  rcases hg x (fun p hp => hx p (h.mem_iff.mp hp)) with hall | hall
  · exact Or.inl fun p hp => hall p (h.mem_iff.mpr hp)
  · exact Or.inr fun p hp => hall p (h.mem_iff.mpr hp)

theorem isEndpoint_of_sub {l1 l : List (ℚ × ℚ)} (hsub : ∀ p ∈ l1, p ∈ l) {v : ℚ}
    (h : IsEndpoint l1 v) : IsEndpoint l v := by
  obtain ⟨p, hp, hpe⟩ := h
  exact ⟨p, hsub p hp, hpe⟩

/-! ### The continuity check on two disjoint endpoint-linked parts whose
union is nevertheless gap-free -/

theorem check_two_components (l l1 l2 : List (ℚ × ℚ))
    (hproper : ∀ p ∈ l, p.1 ≤ p.2)
    (hmem : ∀ p, p ∈ l ↔ (p ∈ l1 ∨ p ∈ l2))
    (hch1 : Chained l1) (hch2 : Chained l2)
    (hdisj : ∀ p ∈ l1, ∀ q ∈ l2, ¬Linked p q)
    (hgap : NoGap l)
    (hin1 : ∃ p, p ∈ l1) (hin2 : ∃ p, p ∈ l2) :
    ∃ m M, IsEndpoint l m ∧ IsEndpoint l M ∧
      (∀ v, IsEndpoint l v → m ≤ v ∧ v ≤ M) ∧
      check_loop_continuity l = some (true, (m, M)) := by
  have hfuel : unvisitedCount (buildGraph l) + 1 ≤ (buildGraph l).length + 1 :=
    Nat.add_le_add_right (unvisitedCount_le_length _) 1
  have hN := buildGraph_nbrsClosed l
  have hfresh := buildGraph_fresh l
  have hsub1 : ∀ p ∈ l1, p ∈ l := fun p hp => (hmem p).mpr (Or.inl hp)
  have hsub2 : ∀ p ∈ l2, p ∈ l := fun p hp => (hmem p).mpr (Or.inr hp)
  have hdisjv : ∀ v, IsEndpoint l1 v → IsEndpoint l2 v → False := by
    rintro v ⟨p, hp, hpe⟩ ⟨q, hq, hqe⟩
    refine hdisj p hp q hq ?_
    unfold Linked
    rcases hpe with rfl | rfl <;> rcases hqe with h | h
    · exact Or.inl h.symm
    · exact Or.inr (Or.inl h.symm)
    · exact Or.inr (Or.inr (Or.inl h.symm))
    · exact Or.inr (Or.inr (Or.inr h.symm))
  have hedge_part : ∀ a b, EdgeOf (buildGraph l) a b →
      (IsEndpoint l1 a ∧ IsEndpoint l1 b) ∨ (IsEndpoint l2 a ∧ IsEndpoint l2 b) := by
    intro a b he
    rw [buildGraph_edge] at he
    obtain ⟨p, hp, hpk⟩ := he
    rcases (hmem p).mp hp with h | h
    · refine Or.inl ?_
      rcases hpk with ⟨rfl, rfl⟩ | ⟨rfl, rfl⟩
      · exact ⟨⟨p, h, Or.inl rfl⟩, ⟨p, h, Or.inr rfl⟩⟩
      · exact ⟨⟨p, h, Or.inr rfl⟩, ⟨p, h, Or.inl rfl⟩⟩
    · refine Or.inr ?_
      rcases hpk with ⟨rfl, rfl⟩ | ⟨rfl, rfl⟩
      · exact ⟨⟨p, h, Or.inl rfl⟩, ⟨p, h, Or.inr rfl⟩⟩
      · exact ⟨⟨p, h, Or.inr rfl⟩, ⟨p, h, Or.inl rfl⟩⟩
  have hreach1 : ∀ a b, Reach (buildGraph l) a b → IsEndpoint l1 a → IsEndpoint l1 b := by
    intro a b h
    induction h with
    | refl => exact id
    | tail hrest he ih =>
      intro ha
      rcases hedge_part _ _ he with ⟨-, h2⟩ | ⟨h2, -⟩
      · exact h2
      · exact absurd (ih ha) fun h1 => hdisjv _ h1 h2
  have hreach2 : ∀ a b, Reach (buildGraph l) a b → IsEndpoint l2 a → IsEndpoint l2 b := by
    intro a b h
    induction h with
    | refl => exact id
    | tail hrest he ih =>
      intro ha
      rcases hedge_part _ _ he with ⟨h2, -⟩ | ⟨-, h2⟩
      · exact absurd (ih ha) fun h1 => hdisjv _ h2 h1
      · exact h2
  have hconn1 : ∀ a b, IsEndpoint l1 a → IsEndpoint l1 b → Reach (buildGraph l) a b := by
    rintro a b ⟨p, hp, hpe⟩ ⟨q, hq, hqe⟩
    exact reach_of_chain l
      (Relation.ReflTransGen.mono
        (fun u v huv => ⟨hsub1 u huv.1, hsub1 v huv.2.1, huv.2.2⟩)
        (hch1 p hp q hq)) (hsub1 p hp) hpe b hqe
  have hconn2 : ∀ a b, IsEndpoint l2 a → IsEndpoint l2 b → Reach (buildGraph l) a b := by
    rintro a b ⟨p, hp, hpe⟩ ⟨q, hq, hqe⟩
    exact reach_of_chain l
      (Relation.ReflTransGen.mono
        (fun u v huv => ⟨hsub2 u huv.1, hsub2 v huv.2.1, huv.2.2⟩)
        (hch2 p hp q hq)) (hsub2 p hp) hpe b hqe
  have hkey_part : ∀ v, IsKey (buildGraph l) v → IsEndpoint l1 v ∨ IsEndpoint l2 v := by
    intro v hv
    rw [buildGraph_isKey] at hv
    obtain ⟨p, hp, hpe⟩ := hv
    rcases (hmem p).mp hp with h | h
    · exact Or.inl ⟨p, h, hpe⟩
    · exact Or.inr ⟨p, h, hpe⟩
  have hkey1 : ∀ v, IsEndpoint l1 v → IsKey (buildGraph l) v := fun v h =>
    (buildGraph_isKey l v).mpr (isEndpoint_of_sub hsub1 h)
  have hkey2 : ∀ v, IsEndpoint l2 v → IsKey (buildGraph l) v := fun v h =>
    (buildGraph_isKey l v).mpr (isEndpoint_of_sub hsub2 h)
  obtain ⟨hE, hvisall, data, hmap, hprops, hpw, hcov⟩ :=
    collect_master ((buildGraph l).length + 1) (keysOf (buildGraph l)) (buildGraph l) hN hfuel
  have hentry : ∀ d ∈ data,
      (IsEndpoint l1 d.1 ∧ IsEndpoint l1 d.2.1 ∧ IsEndpoint l1 d.2.2) ∨
      (IsEndpoint l2 d.1 ∧ IsEndpoint l2 d.2.1 ∧ IsEndpoint l2 d.2.2) := by
    intro d hd
    obtain ⟨hk, -, -, -, -, ho1, ho2⟩ := hprops d hd
    have hov : ∀ v, SpanOrigin (buildGraph l) d.1 v →
        ((IsEndpoint l1 d.1 → IsEndpoint l1 v) ∧
          (IsEndpoint l2 d.1 → IsEndpoint l2 v)) := by
      rintro v (rfl | ⟨k, hr, he⟩)
      · exact ⟨id, id⟩
      · constructor
        · intro h1
          rcases hedge_part _ _ he with ⟨-, h2⟩ | ⟨h2, -⟩
          · exact h2
          · exact absurd (hreach1 _ _ hr h1) fun hx => hdisjv _ hx h2
        · intro h1
          rcases hedge_part _ _ he with ⟨h2, -⟩ | ⟨-, h2⟩
          · exact absurd (hreach2 _ _ hr h1) fun hx => hdisjv _ h2 hx
          · exact h2
    rcases hkey_part d.1 hk with h | h
    · exact Or.inl ⟨h, (hov _ ho1).1 h, (hov _ ho2).1 h⟩
    · exact Or.inr ⟨h, (hov _ ho1).2 h, (hov _ ho2).2 h⟩
  obtain ⟨pa, hpa⟩ := hin1
  obtain ⟨pb, hpb⟩ := hin2
  have hEa : IsEndpoint l1 pa.1 := ⟨pa, hpa, Or.inl rfl⟩
  have hEb : IsEndpoint l2 pb.1 := ⟨pb, hpb, Or.inl rfl⟩
  have hka : IsKey (buildGraph l) pa.1 := hkey1 _ hEa
  have hkb : IsKey (buildGraph l) pb.1 := hkey2 _ hEb
  obtain ⟨⟨rA, mA, MA⟩, hdA, hrA, -, -⟩ :=
    hcov pa.1 ((isKey_iff_mem_keysOf _ _).mp hka) hka (hfresh _)
  obtain ⟨⟨rB, mB, MB⟩, hdB, hrB, -, -⟩ :=
    hcov pb.1 ((isKey_iff_mem_keysOf _ _).mp hkb) hkb (hfresh _)
  have hA1 : IsEndpoint l1 rA :=
    hreach1 _ _ (reach_symm (buildGraph_edge_symm l) hrA) hEa
  have hB1 : IsEndpoint l2 rB :=
    hreach2 _ _ (reach_symm (buildGraph_edge_symm l) hrB) hEb
  have hpairR : ∀ d ∈ data, ∀ d' ∈ data, ¬d = d' →
      ¬ReachU (buildGraph l) d.1 d'.1 := by
    have hsymm : Symmetric fun d d' : ℚ × ℚ × ℚ => ¬ReachU (buildGraph l) d.1 d'.1 :=
      fun d d' h hr => h (reachU_symm (buildGraph_edge_symm l) hr)
    intro d hd d' hd' hned
    exact List.Pairwise.forall hsymm hpw hd hd' hned
  have huniq1 : ∀ d ∈ data, IsEndpoint l1 d.1 → d = (rA, mA, MA) := by
    intro d hd h1
    by_contra hned
    exact hpairR d hd (rA, mA, MA) hdA hned
      ((reachU_iff_reach_of_fresh hfresh _ _).mpr (hconn1 _ _ h1 hA1))
  have huniq2 : ∀ d ∈ data, IsEndpoint l2 d.1 → d = (rB, mB, MB) := by
    intro d hd h1
    by_contra hned
    exact hpairR d hd (rB, mB, MB) hdB hned
      ((reachU_iff_reach_of_fresh hfresh _ _).mpr (hconn2 _ _ h1 hB1))
  have hmemdata : ∀ d ∈ data, d = (rA, mA, MA) ∨ d = (rB, mB, MB) := by
    intro d hd
    rcases hentry d hd with ⟨h1, -, -⟩ | ⟨h1, -, -⟩
    · exact Or.inl (huniq1 d hd h1)
    · exact Or.inr (huniq2 d hd h1)
  have hApure : IsEndpoint l1 mA ∧ IsEndpoint l1 MA := by
    rcases hentry (rA, mA, MA) hdA with ⟨-, h2, h3⟩ | ⟨h1, -, -⟩
    · exact ⟨h2, h3⟩
    · exact absurd hA1 fun hx => hdisjv _ hx h1
  have hBpure : IsEndpoint l2 mB ∧ IsEndpoint l2 MB := by
    rcases hentry (rB, mB, MB) hdB with ⟨h1, -, -⟩ | ⟨-, h2, h3⟩
    · exact absurd hB1 fun hx => hdisjv _ h1 hx
    · exact ⟨h2, h3⟩
  have hAcov : ∀ v, IsEndpoint l1 v → mA ≤ v ∧ v ≤ MA := by
    intro v h1
    have hk : IsKey (buildGraph l) v := hkey1 v h1
    obtain ⟨d, hd, hr, h5, h6⟩ := hcov v ((isKey_iff_mem_keysOf _ _).mp hk) hk (hfresh v)
    have hd1 : IsEndpoint l1 d.1 :=
      hreach1 _ _ (reach_symm (buildGraph_edge_symm l) hr) h1
    have hda := huniq1 d hd hd1
    rw [hda] at h5 h6
    exact ⟨h5, h6⟩
  have hBcov : ∀ v, IsEndpoint l2 v → mB ≤ v ∧ v ≤ MB := by
    intro v h1
    have hk : IsKey (buildGraph l) v := hkey2 v h1
    obtain ⟨d, hd, hr, h5, h6⟩ := hcov v ((isKey_iff_mem_keysOf _ _).mp hk) hk (hfresh v)
    have hd1 : IsEndpoint l2 d.1 :=
      hreach2 _ _ (reach_symm (buildGraph_edge_symm l) hr) h1
    have hdb := huniq2 d hd hd1
    rw [hdb] at h5 h6
    exact ⟨h5, h6⟩
  have hABv : ∀ u w, IsEndpoint l1 u → IsEndpoint l2 w → ¬u = w :=
    fun u w h1 h2 h => hdisjv u h1 (by rw [h]; exact h2)
  have hover1 : mB < MA := by
    rcases lt_trichotomy mB MA with h | h | h
    · exact h
    · exact absurd h.symm (hABv MA mB hApure.2 hBpure.1)
    · exfalso
      have huncov : ∀ p ∈ l, p.2 < (MA + mB) / 2 ∨ (MA + mB) / 2 < p.1 := by
        intro p hp
        rcases (hmem p).mp hp with hp1 | hp2
        · have := (hAcov p.2 ⟨p, hp1, Or.inr rfl⟩).2
          exact Or.inl (by linarith)
        · have := (hBcov p.1 ⟨p, hp2, Or.inl rfl⟩).1
          exact Or.inr (by linarith)
      rcases hgap _ huncov with hall | hall
      · have h1 := hall pb (hsub2 pb hpb)
        have h2 := (hBcov pb.1 ⟨pb, hpb, Or.inl rfl⟩).1
        have h3 := hproper pb (hsub2 pb hpb)
        linarith
      · have h1 := hall pa (hsub1 pa hpa)
        have h2 := (hAcov pa.2 ⟨pa, hpa, Or.inr rfl⟩).2
        have h3 := hproper pa (hsub1 pa hpa)
        linarith
  have hover2 : mA < MB := by
    rcases lt_trichotomy mA MB with h | h | h
    · exact h
    · exact absurd h (hABv mA MB hApure.1 hBpure.2)
    · exfalso
      have huncov : ∀ p ∈ l, p.2 < (MB + mA) / 2 ∨ (MB + mA) / 2 < p.1 := by
        intro p hp
        rcases (hmem p).mp hp with hp1 | hp2
        · have := (hAcov p.1 ⟨p, hp1, Or.inl rfl⟩).1
          exact Or.inr (by linarith)
        · have := (hBcov p.2 ⟨p, hp2, Or.inr rfl⟩).2
          exact Or.inl (by linarith)
      rcases hgap _ huncov with hall | hall
      · have h1 := hall pa (hsub1 pa hpa)
        have h2 := (hAcov pa.1 ⟨pa, hpa, Or.inl rfl⟩).1
        have h3 := hproper pa (hsub1 pa hpa)
        linarith
      · have h1 := hall pb (hsub2 pb hpb)
        have h2 := (hBcov pb.2 ⟨pb, hpb, Or.inr rfl⟩).2
        have h3 := hproper pb (hsub2 pb hpb)
        linarith
  have hne1' : ¬mA = mB := hABv mA mB hApure.1 hBpure.1
  have hne2' : ¬MA = MB := hABv MA MB hApure.2 hBpure.2
  have hspans : ∀ sp ∈ (collectConnections ((buildGraph l).length + 1) (buildGraph l)
      (keysOf (buildGraph l))).2, sp = (mA, MA) ∨ sp = (mB, MB) := by
    intro sp hsp
    rw [hmap] at hsp
    obtain ⟨d, hd, rfl⟩ := List.mem_map.mp hsp
    rcases hmemdata d hd with rfl | rfl
    · exact Or.inl rfl
    · exact Or.inr rfl
  have hsA_mem : (mA, MA) ∈ (collectConnections ((buildGraph l).length + 1) (buildGraph l)
      (keysOf (buildGraph l))).2 := by
    rw [hmap]
    exact List.mem_map_of_mem _ hdA
  have hsB_mem : (mB, MB) ∈ (collectConnections ((buildGraph l).length + 1) (buildGraph l)
      (keysOf (buildGraph l))).2 := by
    rw [hmap]
    exact List.mem_map_of_mem _ hdB
  cases hconns : (collectConnections ((buildGraph l).length + 1) (buildGraph l)
      (keysOf (buildGraph l))).2 with
  | nil =>
    rw [hconns] at hsA_mem
    exact absurd hsA_mem (List.not_mem_nil _)
  | cons c crest =>
    rw [hconns] at hspans hsA_mem hsB_mem
    have hc := hspans c (List.mem_cons_self _ _)
    refine ⟨min mA mB, max MA MB, ?_, ?_, ?_, ?_⟩
    · rcases min_choice mA mB with h | h
      · rw [h]; exact isEndpoint_of_sub hsub1 hApure.1
      · rw [h]; exact isEndpoint_of_sub hsub2 hBpure.1
    · rcases max_choice MA MB with h | h
      · rw [h]; exact isEndpoint_of_sub hsub1 hApure.2
      · rw [h]; exact isEndpoint_of_sub hsub2 hBpure.2
    · intro v hv
      obtain ⟨p, hp, hpe⟩ := hv
      rcases (hmem p).mp hp with h | h
      · have h1 := hAcov v ⟨p, h, hpe⟩
        exact ⟨le_trans (min_le_left _ _) h1.1, le_trans h1.2 (le_max_left _ _)⟩
      · have h1 := hBcov v ⟨p, h, hpe⟩
        exact ⟨le_trans (min_le_right _ _) h1.1, le_trans h1.2 (le_max_right _ _)⟩
    · have hmerge : mergeLoop c (c :: crest) = (true, (min mA mB, max MA MB)) := by
        rcases hc with rfl | rfl
        · exact mergeLoop_two ((mA, MA) :: crest) mA MA mB MB
            hne1' hne2' hover1 hover2 hspans hsB_mem
        · have hswap := mergeLoop_two ((mB, MB) :: crest) mB MB mA MA
            (fun h => hne1' h.symm) (fun h => hne2' h.symm) hover2 hover1
            (fun sp hsp => (hspans sp hsp).symm) hsA_mem
          rw [hswap, min_comm, max_comm]
      have hconns' : (collectConnections ((buildGraph l).length + 1) (buildGraph l)
          ((buildGraph l).map Prod.fst)).2 = c :: crest := hconns
      simp only [check_loop_continuity]
      rw [hconns']
      exact congrArg some hmerge

/-! ### Claim C1: order-insensitivity of the continuity verdict -/

/-- Claim C1 (amended): the verdict is *not* order-insensitive for arbitrary
gap-free inputs (see the counterexample), but it is for inputs that split
into at most two endpoint-linked parts.  For every non-empty interval set
whose members fall into two parts `l1`, `l2`, each pairwise endpoint-chained,
with no endpoint value shared across parts, and whose union is gap-free,
`_check_loop_continuity` returns `true` with the same span bounds under every
processing order of the input. -/
theorem C1_order_insensitive (l l1 l2 : List (ℚ × ℚ)) (hne : ¬l = [])
    (hproper : ∀ p ∈ l, p.1 ≤ p.2)
    (hmem : ∀ p, p ∈ l ↔ (p ∈ l1 ∨ p ∈ l2))
    (hch1 : Chained l1) (hch2 : Chained l2)
    (hdisj : ∀ p ∈ l1, ∀ q ∈ l2, ¬Linked p q)
    (hgap : NoGap l) :
    ∃ m M, IsEndpoint l m ∧ IsEndpoint l M ∧
      (∀ v, IsEndpoint l v → m ≤ v ∧ v ≤ M) ∧
      ∀ l', l.Perm l' → check_loop_continuity l' = some (true, (m, M)) := by
  have key : ∀ la : List (ℚ × ℚ), ¬la = [] → (∀ p ∈ la, p.1 ≤ p.2) →
      (∀ p, p ∈ la ↔ (p ∈ l1 ∨ p ∈ l2)) → NoGap la →
      ∃ m M, IsEndpoint la m ∧ IsEndpoint la M ∧
        (∀ v, IsEndpoint la v → m ≤ v ∧ v ≤ M) ∧
        check_loop_continuity la = some (true, (m, M)) := by
    intro la hnea hpropa hmema hgapa
    by_cases h1 : ∃ p, p ∈ l1
    · by_cases h2 : ∃ p, p ∈ l2
      · exact check_two_components la l1 l2 hpropa hmema hch1 hch2 hdisj hgapa h1 h2
      · have hall : ∀ p ∈ la, p ∈ l1 := by
          intro p hp
          rcases (hmema p).mp hp with h | h
          · exact h
          · exact absurd ⟨p, h⟩ h2
        have hch : Chained la := by
          intro p hp q hq
          exact Relation.ReflTransGen.mono
            (fun a b hab => ⟨(hmema a).mpr (Or.inl hab.1),
              (hmema b).mpr (Or.inl hab.2.1), hab.2.2⟩)
            (hch1 p (hall p hp) q (hall q hq))
        exact check_single_component la hnea hch
    · have hall : ∀ p ∈ la, p ∈ l2 := by
        intro p hp
        rcases (hmema p).mp hp with h | h
        · exact absurd ⟨p, h⟩ h1
        · exact h
      have hch : Chained la := by
        intro p hp q hq
        exact Relation.ReflTransGen.mono
          (fun a b hab => ⟨(hmema a).mpr (Or.inr hab.1),
            (hmema b).mpr (Or.inr hab.2.1), hab.2.2⟩)
          (hch2 p (hall p hp) q (hall q hq))
      exact check_single_component la hnea hch
  obtain ⟨m, M, hm, hM, hbnd, hchk⟩ := key l hne hproper hmem hgap
  refine ⟨m, M, hm, hM, hbnd, ?_⟩
  intro l' hperm
  have hne' : ¬l' = [] := by
    intro h
    rw [h] at hperm
    exact hne hperm.eq_nil
  obtain ⟨m', M', hm', hM', hbnd', hchk'⟩ := key l' hne'
    (fun p hp => hproper p (hperm.mem_iff.mpr hp))
    (fun p => hperm.mem_iff.symm.trans (hmem p))
    (noGap_perm hperm hgap)
  have hmm : m = m' := le_antisymm
    (hbnd m' ((isEndpoint_perm hperm m').mpr hm')).1
    (hbnd' m ((isEndpoint_perm hperm m).mp hm)).1
  have hMM : M = M' := le_antisymm
    (hbnd' M ((isEndpoint_perm hperm M).mp hM)).2
    (hbnd M' ((isEndpoint_perm hperm M').mpr hM')).2
  rw [hchk', ← hmm, ← hMM]

/-- Claim C1 counterexample: the intervals `[0,2]`, `[4,6]`, `[1,5]` are
proper and cover the contiguous span `[0,6]` with no gap, yet
`_check_loop_continuity` rejects them in the given iteration order — the
components `(0,2)`, `(4,6)`, `(1,5)` of the endpoint graph are merged in
dict order, and `(0,2)` is disjoint from `(4,6)` — while a permutation of
the same input (components ordered `(0,2)`, `(1,5)`, `(4,6)`) is accepted
with span `(0,6)`: the true/false verdict depends on the processing
order. -/
theorem C1_counterexample :
    NoGap [((0 : ℚ), (2 : ℚ)), (4, 6), (1, 5)] ∧
    (∀ p ∈ [((0 : ℚ), (2 : ℚ)), (4, 6), (1, 5)], p.1 ≤ p.2) ∧
    List.Perm [((0 : ℚ), (2 : ℚ)), (4, 6), (1, 5)]
      [((0 : ℚ), (2 : ℚ)), (1, 5), (4, 6)] ∧
    check_loop_continuity [((0 : ℚ), (2 : ℚ)), (4, 6), (1, 5)] =
      some (false, (0, 0)) ∧
    check_loop_continuity [((0 : ℚ), (2 : ℚ)), (1, 5), (4, 6)] =
      some (true, (0, 6)) := by
  refine ⟨?_, by decide, List.Perm.cons _ (List.Perm.swap _ _ _), by decide, by decide⟩
  intro x hx
  have h1 := hx (0, 2) (by simp)
  have h2 := hx (4, 6) (by simp)
  have h3 := hx (1, 5) (by simp)
  norm_num at h1 h2 h3
  rcases h1 with h1 | h1
  · rcases h2 with h2 | h2
    · left
      intro p hp
      simp only [List.mem_cons, List.not_mem_nil, or_false] at hp
      rcases hp with rfl | rfl | rfl
      · exact h1
      · exact h2
      · show (5 : ℚ) < x
        linarith
    · rcases h3 with h3 | h3
      · exfalso; linarith
      · exfalso; linarith
  · right
    intro p hp
    simp only [List.mem_cons, List.not_mem_nil, or_false] at hp
    rcases hp with rfl | rfl | rfl
    · exact h1
    · show x < (4 : ℚ)
      linarith
    · show x < (1 : ℚ)
      linarith

/-- Claim C1 witness: `[0,2]` and `[1,4]` form two endpoint-disjoint parts
whose union `[0,4]` is gap-free; the amended theorem applies and pins the
verdict `(true, (0, 4))` for every ordering. -/
theorem C1_witness :
    ∃ m M, IsEndpoint [((0 : ℚ), (2 : ℚ)), (1, 4)] m ∧
      IsEndpoint [((0 : ℚ), (2 : ℚ)), (1, 4)] M ∧
      (∀ v, IsEndpoint [((0 : ℚ), (2 : ℚ)), (1, 4)] v → m ≤ v ∧ v ≤ M) ∧
      ∀ l', List.Perm [((0 : ℚ), (2 : ℚ)), (1, 4)] l' →
        check_loop_continuity l' = some (true, (m, M)) := by
  refine C1_order_insensitive [((0 : ℚ), (2 : ℚ)), (1, 4)]
    [((0 : ℚ), (2 : ℚ))] [((1 : ℚ), (4 : ℚ))]
    (by decide) (by decide) ?_ ?_ ?_ ?_ ?_
  · intro p
    simp [List.mem_cons]
  · intro p hp q hq
    simp only [List.mem_singleton] at hp hq
    subst hp
    subst hq
    exact Relation.ReflTransGen.refl
  · intro p hp q hq
    simp only [List.mem_singleton] at hp hq
    subst hp
    subst hq
    exact Relation.ReflTransGen.refl
  · intro p hp q hq h
    simp only [List.mem_singleton] at hp hq
    subst hp
    subst hq
    unfold Linked at h
    rcases h with h | h | h | h <;> norm_num at h
  · intro x hx
    have h1 := hx (0, 2) (by simp)
    have h2 := hx (1, 4) (by simp)
    norm_num at h1 h2
    rcases h1 with h1 | h1
    · rcases h2 with h2 | h2
      · left
        intro p hp
        simp only [List.mem_cons, List.not_mem_nil, or_false] at hp
        rcases hp with rfl | rfl
        · exact h1
        · exact h2
      · exfalso; linarith
    · right
      intro p hp
      simp only [List.mem_cons, List.not_mem_nil, or_false] at hp
      rcases hp with rfl | rfl
      · exact h1
      · show x < (1 : ℚ)
        linarith

end TiLiA
